import Mathlib

/-
Verification of the CodeAnylizer front end: a shallow embedding of the
lexer (lexer/tokenizer.py, lexer/models.py), the recursive-descent parser
(syntatic/parser.py), the semantic analyzer (semantic/analyzer.py) and the
code generator (codegenerator/translytor.py), together with theorems about
the pipeline's documented properties.
-/

namespace CodeAnalyzer

/-- Token kinds, mirroring the `TokenType` enum of `lexer/models.py`.
Each enum member there carries a regex pattern; the combined regex tries
the alternatives in this declaration order.  `SKIP` matches are filtered
out and `MISMATCH` matches raise, so neither ever appears in a returned
token. -/
inductive TokenType where
  | KEYWORD
  | IDENTIFIER
  | EQUAL
  | UNARY_OPERATOR
  | BINARY_OPERATOR
  | SEMICOLON
  | COMMA
  | LPAREN
  | RPAREN
  | CONSTANT
  | SKIP
  | NEWLINE
  | MISMATCH
deriving DecidableEq, Repr

/-- The name of a token type, as it appears in parser error messages. -/
def TokenType.name : TokenType → String
  | .KEYWORD => "KEYWORD"
  | .IDENTIFIER => "IDENTIFIER"
  | .EQUAL => "EQUAL"
  | .UNARY_OPERATOR => "UNARY_OPERATOR"
  | .BINARY_OPERATOR => "BINARY_OPERATOR"
  | .SEMICOLON => "SEMICOLON"
  | .COMMA => "COMMA"
  | .LPAREN => "LPAREN"
  | .RPAREN => "RPAREN"
  | .CONSTANT => "CONSTANT"
  | .SKIP => "SKIP"
  | .NEWLINE => "NEWLINE"
  | .MISMATCH => "MISMATCH"

/-- A token, mirroring the `Token` dataclass of `lexer/models.py`. -/
structure Token where
  t_type : TokenType
  value : String
  line : Nat
deriving DecidableEq, Repr

/-- The lexical error raised by `Tokenizer.tokenize` on a `MISMATCH`
match: it names the offending character and the current line. -/
structure LexError where
  ch : Char
  line : Nat
deriving DecidableEq, Repr

/-- A word character in the sense of the regex classes `\w` and `\b`
used by `lexer/models.py` (restricted to ASCII, which covers every
character class the token patterns mention). -/
def isWordChar (c : Char) : Bool :=
  c.isAlpha || c.isDigit || c == '_'

/-- First character of an `IDENTIFIER` match: `[a-zA-Z_]`. -/
def isIdentStart (c : Char) : Bool :=
  c.isAlpha || c == '_'

/-- Characters matched by the `SKIP` pattern `[ \t]+`. -/
def isSkipChar (c : Char) : Bool :=
  c == ' ' || c == '\t'

/-- The word-boundary `\b` before the current scan position: holds when
there is no previous character or the previous character is not a word
character. -/
def noWordBefore : Option Char → Bool
  | none => true
  | some c => !isWordChar c

/-- The word-boundary `\b` after a match: holds when the remaining input
is empty or starts with a non-word character. -/
def noWordAt : List Char → Bool
  | [] => true
  | c :: _ => !isWordChar c

/-- Attempt of the `KEYWORD` pattern `\b(Var|Begin|End)\b` at the current
position, given the previous character (for the leading boundary) and the
remaining input.  On success, returns the keyword and the input after
it. -/
def keywordAt (prev : Option Char) (cs : List Char) : Option (String × List Char) :=
  if noWordBefore prev = true then
    if cs.take 3 = "Var".data ∧ noWordAt (cs.drop 3) = true then some ("Var", cs.drop 3)
    else if cs.take 5 = "Begin".data ∧ noWordAt (cs.drop 5) = true then some ("Begin", cs.drop 5)
    else if cs.take 3 = "End".data ∧ noWordAt (cs.drop 3) = true then some ("End", cs.drop 3)
    else none
  else none

/-- Attempt of the `IDENTIFIER` pattern `\b[a-zA-Z_][a-zA-Z0-9_]*\b` at
the current position: the maximal word-character run starting with a
letter or underscore (the trailing boundary holds automatically after a
maximal run). -/
def identAt (prev : Option Char) : List Char → Option (List Char × List Char)
  | [] => none
  | c :: cs =>
    if noWordBefore prev = true ∧ isIdentStart c = true then
      some ((c :: cs).takeWhile isWordChar, (c :: cs).dropWhile isWordChar)
    else none

/-- Attempt of the `CONSTANT` pattern `\b\d+\b`: a maximal digit run whose
trailing boundary holds (the character after the run, if any, is not a
word character). -/
def constantAt (prev : Option Char) : List Char → Option (List Char × List Char)
  | [] => none
  | c :: cs =>
    if noWordBefore prev = true ∧ c.isDigit = true ∧
        noWordAt ((c :: cs).dropWhile Char.isDigit) = true then
      some ((c :: cs).takeWhile Char.isDigit, (c :: cs).dropWhile Char.isDigit)
    else none

/-- The token types after which a `-` is classified as unary, the list
tested by `Tokenizer.tokenize` against the previously retained token. -/
def minusUnaryPreceders : List TokenType :=
  [.SEMICOLON, .COMMA, .LPAREN, .BINARY_OPERATOR, .KEYWORD, .NEWLINE, .EQUAL]

theorem length_dropWhile_le (p : Char → Bool) (l : List Char) :
    (l.dropWhile p).length ≤ l.length := by
  induction l with
  | nil => simp
  | cons a l ih =>
    rw [List.dropWhile_cons]
    split
    · simp only [List.length_cons]
      omega
    · simp

theorem isIdentStart_isWordChar {c : Char} (h : isIdentStart c = true) :
    isWordChar c = true := by
  rcases Bool.or_eq_true _ _ |>.mp h with h' | h' <;> simp [isWordChar, h']

theorem keywordAt_length {prev : Option Char} {cs : List Char} {kw : String}
    {rest : List Char} (h : keywordAt prev cs = some (kw, rest)) :
    rest.length < cs.length := by
  unfold keywordAt at h
  split at h
  · split at h
    · rename_i hc
      cases h
      have h3 : (cs.take 3).length = 3 := by rw [hc.1]; rfl
      simp only [List.length_take] at h3
      simp only [List.length_drop]
      omega
    · split at h
      · rename_i hc
        cases h
        have h5 : (cs.take 5).length = 5 := by rw [hc.1]; rfl
        simp only [List.length_take] at h5
        simp only [List.length_drop]
        omega
      · split at h
        · rename_i hc
          cases h
          have h3 : (cs.take 3).length = 3 := by rw [hc.1]; rfl
          simp only [List.length_take] at h3
          simp only [List.length_drop]
          omega
        · exact absurd h (by simp)
  · exact absurd h (by simp)

theorem identAt_length {prev : Option Char} {cs : List Char} {run rest : List Char}
    (h : identAt prev cs = some (run, rest)) : rest.length < cs.length := by
  cases cs with
  | nil => simp [identAt] at h
  | cons c cs' =>
    rw [identAt] at h
    split at h
    · rename_i hc
      rw [Option.some.injEq, Prod.mk.injEq] at h
      obtain ⟨h1, h2⟩ := h
      subst h2
      rw [List.dropWhile_cons, if_pos (isIdentStart_isWordChar hc.2)]
      have := length_dropWhile_le isWordChar cs'
      simp only [List.length_cons]
      omega
    · simp at h

theorem constantAt_length {prev : Option Char} {cs : List Char} {run rest : List Char}
    (h : constantAt prev cs = some (run, rest)) : rest.length < cs.length := by
  cases cs with
  | nil => simp [constantAt] at h
  | cons c cs' =>
    rw [constantAt] at h
    split at h
    · rename_i hc
      rw [Option.some.injEq, Prod.mk.injEq] at h
      obtain ⟨h1, h2⟩ := h
      subst h2
      rw [List.dropWhile_cons, if_pos hc.2.1]
      have := length_dropWhile_le Char.isDigit cs'
      simp only [List.length_cons]
      omega
    · simp at h

/-- The scanning loop of `Tokenizer.tokenize` (`lexer/tokenizer.py`):
`re.finditer` over the ordered alternation of the `TokenType` patterns
visits consecutive positions (every character matches some pattern, with
`MISMATCH` as catch-all), so it is modelled as a left-to-right scan that
tries the patterns in enum order at each position.  `toks` is the list of
retained tokens so far, `line` the current 1-based line, `prev` the
previously consumed character (for `\b`).  The first argument is fuel
making the recursion structural; each step consumes at least one
character, so any fuel larger than the input length behaves like the
unbounded loop. -/
def tokenizeAux : Nat → List Token → Nat → Option Char → List Char →
    Except LexError (List Token)
  | _, toks, _, _, [] => .ok toks
  | 0, toks, _, _, _ :: _ => .ok toks
  | fuel + 1, toks, line, prev, c :: rest =>
    match keywordAt prev (c :: rest) with
    | some (kw, rest') =>
      tokenizeAux fuel (toks ++ [⟨.KEYWORD, kw, line⟩]) line (some (kw.data.getLastD c)) rest'
    | none =>
      match identAt prev (c :: rest) with
      | some (run, rest') =>
        tokenizeAux fuel (toks ++ [⟨.IDENTIFIER, String.mk run, line⟩]) line
          (some (run.getLastD c)) rest'
      | none =>
        if c = '=' then
          tokenizeAux fuel (toks ++ [⟨.EQUAL, "=", line⟩]) line (some c) rest
        else if c = '-' then
          -- the UNARY_OPERATOR pattern matches first; the tokenizer then
          -- decides unary vs binary from the previously retained token
          match toks.getLast? with
          | none =>
            tokenizeAux fuel (toks ++ [⟨.UNARY_OPERATOR, "-", line⟩]) line (some c) rest
          | some tk =>
            if tk.t_type ∈ minusUnaryPreceders then
              tokenizeAux fuel (toks ++ [⟨.UNARY_OPERATOR, "-", line⟩]) line (some c) rest
            else
              tokenizeAux fuel (toks ++ [⟨.BINARY_OPERATOR, "-", line⟩]) line (some c) rest
        else if c = '+' ∨ c = '*' ∨ c = '/' then
          tokenizeAux fuel (toks ++ [⟨.BINARY_OPERATOR, String.mk [c], line⟩]) line (some c) rest
        else if c = ';' then
          tokenizeAux fuel (toks ++ [⟨.SEMICOLON, ";", line⟩]) line (some c) rest
        else if c = ',' then
          tokenizeAux fuel (toks ++ [⟨.COMMA, ",", line⟩]) line (some c) rest
        else if c = '(' then
          tokenizeAux fuel (toks ++ [⟨.LPAREN, "(", line⟩]) line (some c) rest
        else if c = ')' then
          tokenizeAux fuel (toks ++ [⟨.RPAREN, ")", line⟩]) line (some c) rest
        else
          match constantAt prev (c :: rest) with
          | some (run, rest') =>
            tokenizeAux fuel (toks ++ [⟨.CONSTANT, String.mk run, line⟩]) line
              (some (run.getLastD c)) rest'
          | none =>
            if isSkipChar c then
              tokenizeAux fuel toks line (some (((c :: rest).takeWhile isSkipChar).getLastD c))
                ((c :: rest).dropWhile isSkipChar)
            else if c = '\n' then
              tokenizeAux fuel (toks ++ [⟨.NEWLINE, "\n", line⟩]) (line + 1) (some c) rest
            else
              .error ⟨c, line⟩

/-- `Tokenizer.tokenize`: scan a source string into the retained token
list.  The fuel `code.data.length + 1` is always sufficient: every
recursive call of `tokenizeAux` consumes at least one character while
spending exactly one unit of fuel, so the truncating fuel-0 branch is
never reached from here. -/
def tokenize (code : String) : Except LexError (List Token) :=
  tokenizeAux (code.data.length + 1) [] 1 none code.data

/-- A node of the abstract syntax tree, mirroring the `ASTNode` class of
`syntatic/parser.py`: a kind string, the source line, an optional literal
value and an ordered child list (`add_child` appends on the right). -/
inductive ASTNode where
  | mk (node_type : String) (line : Nat) (value : Option String) (children : List ASTNode)

/-- Kind string of a node. -/
def ASTNode.node_type : ASTNode → String
  | .mk t _ _ _ => t

/-- Source line recorded on a node. -/
def ASTNode.line : ASTNode → Nat
  | .mk _ l _ _ => l

/-- Literal value of a node (identifier name, operator symbol or numeric
literal text). -/
def ASTNode.value : ASTNode → Option String
  | .mk _ _ v _ => v

/-- Ordered children of a node. -/
def ASTNode.children : ASTNode → List ASTNode
  | .mk _ _ _ ch => ch

/-- Failure of `Parser.parse`.  `endOfInput` and `mismatch` and
`valueMismatch` are the structured messages raised by `Parser.__error`;
`noneAttr` models the Python `AttributeError` raised when a rule reads an
attribute of the current token while the token list is exhausted
(`self.__current_token` is `None`); `strAttr` models the `AttributeError`
raised inside `Parser.__error` when `__factor` passes the plain string
`"IDENTIFIER or CONSTANT"` as the expected type and `TokenType.__eq__`
evaluates `other.value` on that string. -/
inductive ParseError where
  | endOfInput (expected : String)
  | mismatch (expected : String) (found : TokenType) (line : Nat)
  | valueMismatch (expected got : String) (line : Nat)
  | noneAttr
  | strAttr
  | outOfFuel
deriving DecidableEq, Repr

namespace Parser

/-- `Parser.__eat`: if the current token exists and has the expected
type (and, when a value is demanded, the expected value), advance past
it; otherwise raise through `Parser.__error`. -/
def eat (expected : TokenType) (val : Option String) (rest : List Token) :
    Except ParseError (List Token) :=
  match rest with
  | [] => .error (.endOfInput expected.name)
  | t :: ts =>
    if t.t_type = expected then
      match val with
      | some s => if t.value = s then .ok ts else .error (.valueMismatch s t.value t.line)
      | none => .ok ts
    else .error (.mismatch expected.name t.t_type t.line)

/-- `Parser.__identifier`: builds an `Ident` node from the current token
(reading its attributes, hence `noneAttr` on exhausted input), then eats
an `IDENTIFIER` token. -/
def identifier (rest : List Token) : Except ParseError (ASTNode × List Token) :=
  match rest with
  | [] => .error .noneAttr
  | t :: ts =>
    match eat .IDENTIFIER none (t :: ts) with
    | .error e => .error e
    | .ok rest' => .ok (.mk "Ident" t.line (some t.value) [], rest')

mutual

/-- `Parser.__expression`: a term followed by a left-folded chain of
`+`/`-` binary operators. -/
def expression (fuel : Nat) (rest : List Token) :
    Except ParseError (ASTNode × List Token) :=
  match fuel with
  | 0 => .error .outOfFuel
  | fuel + 1 =>
    match term fuel rest with
    | .error e => .error e
    | .ok (node, rest₁) => expressionLoop fuel node rest₁

/-- The while-loop of `Parser.__expression`: as long as the current token
is a `BINARY_OPERATOR` with value `+` or `-`, wrap the accumulated node
and the next term into a `BinOp` node. -/
def expressionLoop (fuel : Nat) (node : ASTNode) (rest : List Token) :
    Except ParseError (ASTNode × List Token) :=
  match fuel with
  | 0 => .error .outOfFuel
  | fuel + 1 =>
    match rest with
    | [] => .ok (node, rest)
    | t :: rest₁ =>
      if t.t_type = .BINARY_OPERATOR ∧ (t.value = "+" ∨ t.value = "-") then
        match term fuel rest₁ with
        | .error e => .error e
        | .ok (right, rest₂) =>
          expressionLoop fuel (.mk "BinOp" t.line (some t.value) [node, right]) rest₂
      else .ok (node, t :: rest₁)

/-- `Parser.__term`: a factor followed by a left-folded chain of `*`/`/`
binary operators. -/
def term (fuel : Nat) (rest : List Token) :
    Except ParseError (ASTNode × List Token) :=
  match fuel with
  | 0 => .error .outOfFuel
  | fuel + 1 =>
    match factor fuel rest with
    | .error e => .error e
    | .ok (node, rest₁) => termLoop fuel node rest₁

/-- The while-loop of `Parser.__term` over `*`/`/` operators. -/
def termLoop (fuel : Nat) (node : ASTNode) (rest : List Token) :
    Except ParseError (ASTNode × List Token) :=
  match fuel with
  | 0 => .error .outOfFuel
  | fuel + 1 =>
    match rest with
    | [] => .ok (node, rest)
    | t :: rest₁ =>
      if t.t_type = .BINARY_OPERATOR ∧ (t.value = "*" ∨ t.value = "/") then
        match factor fuel rest₁ with
        | .error e => .error e
        | .ok (right, rest₂) =>
          termLoop fuel (.mk "BinOp" t.line (some t.value) [node, right]) rest₂
      else .ok (node, t :: rest₁)

/-- `Parser.__factor`: a parenthesized expression, a unary operator
applied to a factor, an identifier, or a constant.  Reading
`self.__current_token.t_type` on exhausted input raises an
`AttributeError` (`noneAttr`); in the final `else`, `__error` compares the
current token's type with the string `"IDENTIFIER or CONSTANT"`, which
raises an `AttributeError` inside `TokenType.__eq__` (`strAttr`). -/
def factor (fuel : Nat) (rest : List Token) :
    Except ParseError (ASTNode × List Token) :=
  match fuel with
  | 0 => .error .outOfFuel
  | fuel + 1 =>
    match rest with
    | [] => .error .noneAttr
    | t :: rest₁ =>
      if t.t_type = .LPAREN then
        match expression fuel rest₁ with
        | .error e => .error e
        | .ok (node, rest₂) =>
          match eat .RPAREN none rest₂ with
          | .error e => .error e
          | .ok rest₃ => .ok (node, rest₃)
      else if t.t_type = .UNARY_OPERATOR then
        match factor fuel rest₁ with
        | .error e => .error e
        | .ok (child, rest₂) =>
          .ok (.mk "UnaryOp" t.line (some t.value) [child], rest₂)
      else if t.t_type = .IDENTIFIER then
        .ok (.mk "Ident" t.line (some t.value) [], rest₁)
      else if t.t_type = .CONSTANT then
        .ok (.mk "Constant" t.line (some t.value) [], rest₁)
      else .error .strAttr

end

/-- The while-loop of `Parser.__identifier_list`: as long as the current
token is a comma, eat it and parse another identifier. -/
def identifierListLoop (fuel : Nat) (kids : List ASTNode) (rest : List Token) :
    Except ParseError (List ASTNode × List Token) :=
  match fuel with
  | 0 => .error .outOfFuel
  | fuel + 1 =>
    match rest with
    | [] => .ok (kids, rest)
    | t :: rest₁ =>
      if t.t_type = .COMMA then
        match identifier rest₁ with
        | .error e => .error e
        | .ok (n, rest₂) => identifierListLoop fuel (kids ++ [n]) rest₂
      else .ok (kids, t :: rest₁)

/-- `Parser.__identifier_list`: one identifier, then comma-separated
identifiers, then a semicolon.  The `IdList` node's line is hardcoded
to 1 in the source. -/
def identifierList (fuel : Nat) (rest : List Token) :
    Except ParseError (ASTNode × List Token) :=
  match identifier rest with
  | .error e => .error e
  | .ok (first, rest₁) =>
    match identifierListLoop fuel [first] rest₁ with
    | .error e => .error e
    | .ok (kids, rest₂) =>
      match eat .SEMICOLON none rest₂ with
      | .error e => .error e
      | .ok rest₃ => .ok (.mk "IdList" 1 none kids, rest₃)

/-- `Parser.__variable_declaration`: reads the current token's line
(hence `noneAttr` on exhausted input) and wraps the identifier list in a
`VarDecl` node. -/
def variableDeclaration (fuel : Nat) (rest : List Token) :
    Except ParseError (ASTNode × List Token) :=
  match rest with
  | [] => .error .noneAttr
  | t :: _ =>
    match identifierList fuel rest with
    | .error e => .error e
    | .ok (idl, rest') => .ok (.mk "VarDecl" t.line none [idl], rest')

/-- `Parser.__assignment`: identifier, `=`, expression, `;`, newline. -/
def assignment (fuel : Nat) (rest : List Token) :
    Except ParseError (ASTNode × List Token) :=
  match rest with
  | [] => .error .noneAttr
  | t :: _ =>
    match identifier rest with
    | .error e => .error e
    | .ok (idn, rest₁) =>
      match eat .EQUAL none rest₁ with
      | .error e => .error e
      | .ok rest₂ =>
        match expression fuel rest₂ with
        | .error e => .error e
        | .ok (ex, rest₃) =>
          match eat .SEMICOLON none rest₃ with
          | .error e => .error e
          | .ok rest₄ =>
            match eat .NEWLINE none rest₄ with
            | .error e => .error e
            | .ok rest₅ => .ok (.mk "Assign" t.line none [idn, ex], rest₅)

/-- The while-loop of `Parser.__assignment_list`: parse further
assignments as long as the current token is an identifier. -/
def assignmentListLoop (fuel : Nat) (kids : List ASTNode) (rest : List Token) :
    Except ParseError (List ASTNode × List Token) :=
  match fuel with
  | 0 => .error .outOfFuel
  | fuel + 1 =>
    match rest with
    | [] => .ok (kids, rest)
    | t :: rest₁ =>
      if t.t_type = .IDENTIFIER then
        match assignment fuel (t :: rest₁) with
        | .error e => .error e
        | .ok (a, rest₂) => assignmentListLoop fuel (kids ++ [a]) rest₂
      else .ok (kids, t :: rest₁)

/-- `Parser.__assignment_list`: reads the current token's line (hence
`noneAttr` on exhausted input), then one or more assignments. -/
def assignmentList (fuel : Nat) (rest : List Token) :
    Except ParseError (ASTNode × List Token) :=
  match rest with
  | [] => .error .noneAttr
  | t :: _ =>
    match assignment fuel rest with
    | .error e => .error e
    | .ok (a, rest₁) =>
      match assignmentListLoop fuel [a] rest₁ with
      | .error e => .error e
      | .ok (kids, rest₂) => .ok (.mk "AssignList" t.line none kids, rest₂)

/-- `Parser.__program`: `Var`, declaration, newline, `Begin`, newline,
assignment list, `End`.  Leftover tokens after `End` are ignored, as in
the source. -/
def program (fuel : Nat) (rest : List Token) :
    Except ParseError (ASTNode × List Token) :=
  match eat .KEYWORD (some "Var") rest with
  | .error e => .error e
  | .ok rest₁ =>
    match variableDeclaration fuel rest₁ with
    | .error e => .error e
    | .ok (vd, rest₂) =>
      match eat .NEWLINE none rest₂ with
      | .error e => .error e
      | .ok rest₃ =>
        match eat .KEYWORD (some "Begin") rest₃ with
        | .error e => .error e
        | .ok rest₄ =>
          match eat .NEWLINE none rest₄ with
          | .error e => .error e
          | .ok rest₅ =>
            match assignmentList fuel rest₅ with
            | .error e => .error e
            | .ok (al, rest₆) =>
              match eat .KEYWORD (some "End") rest₆ with
              | .error e => .error e
              | .ok rest₇ => .ok (.mk "Program" 1 none [vd, al], rest₇)

end Parser

/-- Fuel that is always sufficient for `Parser.parse` (established by
`parse_no_outOfFuel` below). -/
def parseFuel (ts : List Token) : Nat := 3 * ts.length + 10

/-- `Parser.parse`: run `__program` on the token list and return the
resulting AST root. -/
def parse (ts : List Token) : Except ParseError ASTNode :=
  match Parser.program (parseFuel ts) ts with
  | .error e => .error e
  | .ok (node, _) => .ok node

/-- State of `SemanticAnalyzer` (`semantic/analyzer.py`): the symbol
table (a dict whose values are always `None`, so only the keys matter,
kept in insertion order), the set of initialized variables, and the flag
set after the declaration block has been visited.  Keys are the node
values, hence `Option String`. -/
structure AnalyzerState where
  symbol_table : List (Option String)
  initialized_vars : List (Option String)
  var_Visited : Bool
deriving DecidableEq, Repr

/-- Errors raised by `SemanticAnalyzer`.  `notDeclaredNoLine` is the
line-less message of `visit_Factor`; `indexError` models the Python
`IndexError` when a handler reads `children[0]`/`children[1]` of a node
that lacks them. -/
inductive SemanticError where
  | redeclared (name : Option String) (line : Nat)
  | notDeclared (name : Option String) (line : Nat)
  | notInitialized (name : Option String) (line : Nat)
  | notDeclaredNoLine (name : Option String)
  | indexError
deriving DecidableEq, Repr

mutual

/-- `SemanticAnalyzer.visit`: dispatch on the node-kind string to the
`visit_<kind>` handler, with `generic_visit` (visit all children) as
default.  Handlers `visit_Program`, `visit_AssignList`, `visit_Expr` and
`visit_Term` just call `generic_visit`. -/
def visit (node : ASTNode) (st : AnalyzerState) : Except SemanticError AnalyzerState :=
  match node with
  | .mk t line v ch =>
    if t = "VarDecl" then
      match visitSeq ch st with
      | .error e => .error e
      | .ok st' => .ok { st' with var_Visited := true }
    else if t = "IdList" then visitIdListChildren ch st
    else if t = "Ident" then
      if v ∉ st.symbol_table then .error (.notDeclared v line)
      else if v ∉ st.initialized_vars ∧ st.var_Visited = true then
        .error (.notInitialized v line)
      else .ok st
    else if t = "Assign" then
      match ch with
      | [] => .error .indexError
      | c0 :: _ =>
        if c0.value ∉ st.symbol_table then .error (.notDeclared c0.value c0.line)
        else visitSeq ch { st with initialized_vars := st.initialized_vars ++ [c0.value] }
    else if t = "Factor" then
      match ch with
      | [] => .error .indexError
      | c0 :: _ =>
        if c0.node_type = "Ident" ∧ c0.value ∉ st.symbol_table then
          .error (.notDeclaredNoLine c0.value)
        else visitSeq ch st
    else visitSeq ch st

/-- `SemanticAnalyzer.generic_visit`: visit all children in order,
threading the analyzer state. -/
def visitSeq (nodes : List ASTNode) (st : AnalyzerState) :
    Except SemanticError AnalyzerState :=
  match nodes with
  | [] => .ok st
  | c :: cs =>
    match visit c st with
    | .error e => .error e
    | .ok st' => visitSeq cs st'

/-- The loop of `SemanticAnalyzer.visit_IdList`: for each child, raise
`Redeclared` if its value is already a symbol-table key, otherwise
register it and visit the child. -/
def visitIdListChildren (nodes : List ASTNode) (st : AnalyzerState) :
    Except SemanticError AnalyzerState :=
  match nodes with
  | [] => .ok st
  | c :: cs =>
    if c.value ∈ st.symbol_table then .error (.redeclared c.value c.line)
    else
      match visit c { st with symbol_table := st.symbol_table ++ [c.value] } with
      | .error e => .error e
      | .ok st' => visitIdListChildren cs st'

end

/-- `SemanticAnalyzer.analyze`: visit the root with a fresh state. -/
def analyze (ast : ASTNode) : Except SemanticError AnalyzerState :=
  visit ast ⟨[], [], false⟩

/-- Failures of `CodeGenerator._generate_node`: `indexError` models a
read of a missing `children[i]`, `typeError` a `+` between `str` and a
`None` node value, `unsupported` the explicit `ValueError` of the final
`else`. -/
inductive GenError where
  | indexError
  | typeError
  | unsupported (t : String)
deriving DecidableEq, Repr

/-- Python `str.rstrip(', ')`: remove trailing characters that are a
comma or a space. -/
def rstripCommaSpace (s : String) : String :=
  String.mk (s.data.reverse.dropWhile (fun c => c == ',' || c == ' ')).reverse

mutual

/-- `CodeGenerator._generate_node` (`codegenerator/translytor.py`),
modelled with the mutable output buffer passed and returned explicitly.
Note that the shared `BinOp`/`UnaryOp` branch appends the operator symbol
only for `BinOp`, and appends the second child only when there are
exactly two children. -/
def generateNode (node : ASTNode) (buf : String) : Except GenError String :=
  match node with
  | .mk t _ v ch =>
    if t = "Program" then generateSeq ch buf
    else if t = "VarDecl" then
      match ch with
      | [] => .error .indexError
      | c0 :: _ =>
        match generateNode c0 (buf ++ "Var ") with
        | .error e => .error e
        | .ok buf' => .ok (rstripCommaSpace buf')
    else if t = "IdList" then
      match generateIdListChildren ch buf with
      | .error e => .error e
      | .ok buf' => .ok (rstripCommaSpace buf' ++ ";\n")
    else if t = "Ident" then
      match v with
      | some s => .ok (buf ++ s)
      | none => .error .typeError
    else if t = "AssignList" then generateSeq ch buf
    else if t = "Assign" then
      match ch with
      | c0 :: c1 :: _ =>
        match generateNode c0 buf with
        | .error e => .error e
        | .ok buf₁ =>
          match generateNode c1 (buf₁ ++ " = ") with
          | .error e => .error e
          | .ok buf₂ => .ok (buf₂ ++ ";\n")
      | _ => .error .indexError
    else if t = "BinOp" ∨ t = "UnaryOp" then
      match ch with
      | [] => .error .indexError
      | c0 :: chrest =>
        match generateNode c0 buf with
        | .error e => .error e
        | .ok buf₁ =>
          match (if t = "BinOp" then
                   match v with
                   | some s => .ok (buf₁ ++ " " ++ s ++ " ")
                   | none => .error .typeError
                 else (.ok buf₁ : Except GenError String)) with
          | .error e => .error e
          | .ok buf₂ =>
            match chrest with
            | [c1] => generateNode c1 buf₂
            | _ => .ok buf₂
    else if t = "Constant" then
      match v with
      | some s => .ok (buf ++ s)
      | none => .error .typeError
    else .error (.unsupported t)

/-- The `for child in node.children` loops of the `Program` and
`AssignList` branches. -/
def generateSeq (nodes : List ASTNode) (buf : String) : Except GenError String :=
  match nodes with
  | [] => .ok buf
  | c :: cs =>
    match generateNode c buf with
    | .error e => .error e
    | .ok buf' => generateSeq cs buf'

/-- The `IdList` loop: each child followed by `", "`. -/
def generateIdListChildren (nodes : List ASTNode) (buf : String) :
    Except GenError String :=
  match nodes with
  | [] => .ok buf
  | c :: cs =>
    match generateNode c buf with
    | .error e => .error e
    | .ok buf' => generateIdListChildren cs (buf' ++ ", ")

end

/-- `CodeGenerator.generate`: render the AST starting from an empty
buffer. -/
def generate (ast : ASTNode) : Except GenError String :=
  generateNode ast ""

/-! ### Concrete sample programs

Token lists and ASTs below are the evaluation results of `tokenize` and
`parse` on the named source strings; the theorems verify them by
reduction. -/

/-- Source text of the end-to-end sample program of the specification. -/
def sampleSrc : String := "Var x, y;\nBegin\nx = 5;\ny = x + 10;\nEnd"

/-- Token list produced by scanning `sampleSrc`. -/
def sampleToks : List Token :=
  [⟨.KEYWORD, "Var", 1⟩, ⟨.IDENTIFIER, "x", 1⟩, ⟨.COMMA, ",", 1⟩,
   ⟨.IDENTIFIER, "y", 1⟩, ⟨.SEMICOLON, ";", 1⟩, ⟨.NEWLINE, "\n", 1⟩,
   ⟨.KEYWORD, "Begin", 2⟩, ⟨.NEWLINE, "\n", 2⟩,
   ⟨.IDENTIFIER, "x", 3⟩, ⟨.EQUAL, "=", 3⟩, ⟨.CONSTANT, "5", 3⟩,
   ⟨.SEMICOLON, ";", 3⟩, ⟨.NEWLINE, "\n", 3⟩,
   ⟨.IDENTIFIER, "y", 4⟩, ⟨.EQUAL, "=", 4⟩, ⟨.IDENTIFIER, "x", 4⟩,
   ⟨.BINARY_OPERATOR, "+", 4⟩, ⟨.CONSTANT, "10", 4⟩,
   ⟨.SEMICOLON, ";", 4⟩, ⟨.NEWLINE, "\n", 4⟩, ⟨.KEYWORD, "End", 5⟩]

/-- AST produced by parsing `sampleToks`. -/
def sampleAst : ASTNode :=
  .mk "Program" 1 none
    [.mk "VarDecl" 1 none
      [.mk "IdList" 1 none [.mk "Ident" 1 (some "x") [], .mk "Ident" 1 (some "y") []]],
     .mk "AssignList" 3 none
      [.mk "Assign" 3 none [.mk "Ident" 3 (some "x") [], .mk "Constant" 3 (some "5") []],
       .mk "Assign" 4 none
        [.mk "Ident" 4 (some "y") [],
         .mk "BinOp" 4 (some "+")
          [.mk "Ident" 4 (some "x") [], .mk "Constant" 4 (some "10") []]]]]

/-- The text emitted for `sampleAst`. -/
def sampleOut : String := "Var x, y;\nx = 5;\ny = x + 10;\n"

/-- Token list produced by re-scanning `sampleOut`. -/
def sampleOutToks : List Token :=
  [⟨.KEYWORD, "Var", 1⟩, ⟨.IDENTIFIER, "x", 1⟩, ⟨.COMMA, ",", 1⟩,
   ⟨.IDENTIFIER, "y", 1⟩, ⟨.SEMICOLON, ";", 1⟩, ⟨.NEWLINE, "\n", 1⟩,
   ⟨.IDENTIFIER, "x", 2⟩, ⟨.EQUAL, "=", 2⟩, ⟨.CONSTANT, "5", 2⟩,
   ⟨.SEMICOLON, ";", 2⟩, ⟨.NEWLINE, "\n", 2⟩,
   ⟨.IDENTIFIER, "y", 3⟩, ⟨.EQUAL, "=", 3⟩, ⟨.IDENTIFIER, "x", 3⟩,
   ⟨.BINARY_OPERATOR, "+", 3⟩, ⟨.CONSTANT, "10", 3⟩,
   ⟨.SEMICOLON, ";", 3⟩, ⟨.NEWLINE, "\n", 3⟩]

/-- Tokens of the precedence sample `Var x;` / `Begin` / `x = 5 + 2 * 3;`
/ `End`. -/
def precToks : List Token :=
  [⟨.KEYWORD, "Var", 1⟩, ⟨.IDENTIFIER, "x", 1⟩, ⟨.SEMICOLON, ";", 1⟩,
   ⟨.NEWLINE, "\n", 1⟩, ⟨.KEYWORD, "Begin", 2⟩, ⟨.NEWLINE, "\n", 2⟩,
   ⟨.IDENTIFIER, "x", 3⟩, ⟨.EQUAL, "=", 3⟩, ⟨.CONSTANT, "5", 3⟩,
   ⟨.BINARY_OPERATOR, "+", 3⟩, ⟨.CONSTANT, "2", 3⟩,
   ⟨.BINARY_OPERATOR, "*", 3⟩, ⟨.CONSTANT, "3", 3⟩,
   ⟨.SEMICOLON, ";", 3⟩, ⟨.NEWLINE, "\n", 3⟩, ⟨.KEYWORD, "End", 4⟩]

/-- AST of the precedence sample: the `+` node's right child is the `*`
node over constants `2` and `3`. -/
def precAst : ASTNode :=
  .mk "Program" 1 none
    [.mk "VarDecl" 1 none [.mk "IdList" 1 none [.mk "Ident" 1 (some "x") []]],
     .mk "AssignList" 3 none
      [.mk "Assign" 3 none
        [.mk "Ident" 3 (some "x") [],
         .mk "BinOp" 3 (some "+")
          [.mk "Constant" 3 (some "5") [],
           .mk "BinOp" 3 (some "*")
            [.mk "Constant" 3 (some "2") [], .mk "Constant" 3 (some "3") []]]]]]

/-- Tokens of the associativity sample `Var x;` / `Begin` /
`x = 10 - 4 - 3;` / `End`. -/
def assocToks : List Token :=
  [⟨.KEYWORD, "Var", 1⟩, ⟨.IDENTIFIER, "x", 1⟩, ⟨.SEMICOLON, ";", 1⟩,
   ⟨.NEWLINE, "\n", 1⟩, ⟨.KEYWORD, "Begin", 2⟩, ⟨.NEWLINE, "\n", 2⟩,
   ⟨.IDENTIFIER, "x", 3⟩, ⟨.EQUAL, "=", 3⟩, ⟨.CONSTANT, "10", 3⟩,
   ⟨.BINARY_OPERATOR, "-", 3⟩, ⟨.CONSTANT, "4", 3⟩,
   ⟨.BINARY_OPERATOR, "-", 3⟩, ⟨.CONSTANT, "3", 3⟩,
   ⟨.SEMICOLON, ";", 3⟩, ⟨.NEWLINE, "\n", 3⟩, ⟨.KEYWORD, "End", 4⟩]

/-- AST of the associativity sample: the subtraction folds to the shape
`(10 - 4) - 3`. -/
def assocAst : ASTNode :=
  .mk "Program" 1 none
    [.mk "VarDecl" 1 none [.mk "IdList" 1 none [.mk "Ident" 1 (some "x") []]],
     .mk "AssignList" 3 none
      [.mk "Assign" 3 none
        [.mk "Ident" 3 (some "x") [],
         .mk "BinOp" 3 (some "-")
          [.mk "BinOp" 3 (some "-")
            [.mk "Constant" 3 (some "10") [], .mk "Constant" 3 (some "4") []],
           .mk "Constant" 3 (some "3") []]]]]

/-- Tokens of the unary sample `Var x;` / `Begin` / `x = -5;` / `End`. -/
def unaryToks : List Token :=
  [⟨.KEYWORD, "Var", 1⟩, ⟨.IDENTIFIER, "x", 1⟩, ⟨.SEMICOLON, ";", 1⟩,
   ⟨.NEWLINE, "\n", 1⟩, ⟨.KEYWORD, "Begin", 2⟩, ⟨.NEWLINE, "\n", 2⟩,
   ⟨.IDENTIFIER, "x", 3⟩, ⟨.EQUAL, "=", 3⟩, ⟨.UNARY_OPERATOR, "-", 3⟩,
   ⟨.CONSTANT, "5", 3⟩, ⟨.SEMICOLON, ";", 3⟩, ⟨.NEWLINE, "\n", 3⟩,
   ⟨.KEYWORD, "End", 4⟩]

/-- AST of the unary sample, containing a `UnaryOp` node. -/
def unaryAst : ASTNode :=
  .mk "Program" 1 none
    [.mk "VarDecl" 1 none [.mk "IdList" 1 none [.mk "Ident" 1 (some "x") []]],
     .mk "AssignList" 3 none
      [.mk "Assign" 3 none
        [.mk "Ident" 3 (some "x") [],
         .mk "UnaryOp" 3 (some "-") [.mk "Constant" 3 (some "5") []]]]]

/-! ### Claim theorems -/

/-- C3: the end-to-end sample program `Var x, y;` / `Begin` / `x = 5;` /
`y = x + 10;` / `End`, when scanned, parsed and semantically checked,
passes the check without error, and emitting the resulting AST produces
exactly the text `Var x, y;\nx = 5;\ny = x + 10;\n`. -/
theorem c3_end_to_end_sample :
    tokenize sampleSrc = .ok sampleToks ∧
    parse sampleToks = .ok sampleAst ∧
    analyze sampleAst = .ok ⟨[some "x", some "y"], [some "x", some "y"], true⟩ ∧
    generate sampleAst = .ok "Var x, y;\nx = 5;\ny = x + 10;\n" :=
  ⟨rfl, rfl, rfl, rfl⟩

/-- C6: expression parsing gives `*`/`/` higher precedence than `+`/`-`
and both levels are left-associative: `x = 5 + 2 * 3;` parses so that
the assignment's expression is a `+` node whose right child is a `*`
node over constants `2` and `3` (see `precAst`), and emitting it
reproduces the line `x = 5 + 2 * 3;`; `x = 10 - 4 - 3;` folds to the
shape `(10 - 4) - 3`, not `10 - (4 - 3)` (see `assocAst`). -/
theorem c6_precedence_left_associativity :
    tokenize "Var x;\nBegin\nx = 5 + 2 * 3;\nEnd" = .ok precToks ∧
    parse precToks = .ok precAst ∧
    generate precAst = .ok "Var x;\nx = 5 + 2 * 3;\n" ∧
    tokenize "Var x;\nBegin\nx = 10 - 4 - 3;\nEnd" = .ok assocToks ∧
    parse assocToks = .ok assocAst :=
  ⟨rfl, rfl, rfl, rfl, rfl⟩

/-- C2: contrary to the specified rendering `<op><operand>`, the
emitter's shared `BinOp`/`UnaryOp` branch appends the operator symbol
only for `BinOp` nodes, so a `UnaryOp` `-` over constant `5` emits as
`5`, and the checked program `x = -5;` emits as `x = 5;`, silently
dropping the sign. -/
theorem c2_unary_operator_dropped :
    generate (.mk "UnaryOp" 3 (some "-") [.mk "Constant" 3 (some "5") []]) = .ok "5" ∧
    tokenize "Var x;\nBegin\nx = -5;\nEnd" = .ok unaryToks ∧
    parse unaryToks = .ok unaryAst ∧
    analyze unaryAst = .ok ⟨[some "x"], [some "x"], true⟩ ∧
    generate unaryAst = .ok "Var x;\nx = 5;\n" :=
  ⟨rfl, rfl, rfl, rfl, rfl⟩

/-- C1 counterexample: the round trip `parse (scan (emit ast))` does not
yield an AST structurally equal to the original for the AST of the
end-to-end sample — the emitted text re-scans, but re-parsing fails
(the emitter omits the `Begin`/`End` keywords), so the round trip
returns no AST at all. -/
theorem c1_round_trip_fails_on_sample :
    tokenize sampleSrc = .ok sampleToks ∧
    parse sampleToks = .ok sampleAst ∧
    generate sampleAst = .ok sampleOut ∧
    tokenize sampleOut = .ok sampleOutToks ∧
    ∀ ast2, parse sampleOutToks ≠ .ok ast2 := by
  refine ⟨rfl, rfl, rfl, rfl, fun ast2 h => ?_⟩
  rw [show parse sampleOutToks = .error (.mismatch "KEYWORD" .IDENTIFIER 2) from rfl] at h
  cases h

/-- C1 (amended): emitting the AST of a parsed valid program yields
target-language text that omits the `Begin` and `End` keywords, so
re-parsing the re-scanned emitted text fails with a structured syntax
error (expecting the keyword `Begin`, finding an identifier on line 2)
instead of yielding a structurally equal AST; shown on the end-to-end
sample. -/
theorem c1_round_trip_amended :
    tokenize sampleSrc = .ok sampleToks ∧
    parse sampleToks = .ok sampleAst ∧
    generate sampleAst = .ok sampleOut ∧
    (∀ t ∈ sampleOutToks, t.value ≠ "Begin" ∧ t.value ≠ "End") ∧
    tokenize sampleOut = .ok sampleOutToks ∧
    parse sampleOutToks = .error (.mismatch "KEYWORD" .IDENTIFIER 2) := by
  refine ⟨rfl, rfl, rfl, ?_, rfl, rfl⟩
  decide

/-- C4 counterexample: exhausting the token sequence mid-rule does not
always produce the structured `expected <type>, end of input` error: on
the token list of the source `Var`, the parser dereferences the `None`
current token inside `__variable_declaration` (an `AttributeError`,
`noneAttr`), and on `x = ;` the `__factor` error path crashes comparing
a `TokenType` with the plain string `"IDENTIFIER or CONSTANT"`
(`strAttr`); neither failure is a structured syntax error carrying an
expected kind. -/
theorem c4_unstructured_failures :
    tokenize "Var" = .ok [⟨.KEYWORD, "Var", 1⟩] ∧
    parse [⟨.KEYWORD, "Var", 1⟩] = .error .noneAttr ∧
    tokenize "Var x;\nBegin\nx = ;\nEnd" =
      .ok [⟨.KEYWORD, "Var", 1⟩, ⟨.IDENTIFIER, "x", 1⟩, ⟨.SEMICOLON, ";", 1⟩,
           ⟨.NEWLINE, "\n", 1⟩, ⟨.KEYWORD, "Begin", 2⟩, ⟨.NEWLINE, "\n", 2⟩,
           ⟨.IDENTIFIER, "x", 3⟩, ⟨.EQUAL, "=", 3⟩, ⟨.SEMICOLON, ";", 3⟩,
           ⟨.NEWLINE, "\n", 3⟩, ⟨.KEYWORD, "End", 4⟩] ∧
    parse [⟨.KEYWORD, "Var", 1⟩, ⟨.IDENTIFIER, "x", 1⟩, ⟨.SEMICOLON, ";", 1⟩,
           ⟨.NEWLINE, "\n", 1⟩, ⟨.KEYWORD, "Begin", 2⟩, ⟨.NEWLINE, "\n", 2⟩,
           ⟨.IDENTIFIER, "x", 3⟩, ⟨.EQUAL, "=", 3⟩, ⟨.SEMICOLON, ";", 3⟩,
           ⟨.NEWLINE, "\n", 3⟩, ⟨.KEYWORD, "End", 4⟩] = .error .strAttr ∧
    (∀ s, ParseError.noneAttr ≠ .endOfInput s) ∧
    (∀ s t l, ParseError.noneAttr ≠ .mismatch s t l) ∧
    (∀ s, ParseError.strAttr ≠ .endOfInput s) ∧
    (∀ s t l, ParseError.strAttr ≠ .mismatch s t l) := by
  refine ⟨rfl, rfl, rfl, rfl, ?_, ?_, ?_, ?_⟩ <;> intros <;> simp

theorem variableDeclaration_shape {fuel : Nat} {rest : List Token} {vd : ASTNode}
    {rest' : List Token} (h : Parser.variableDeclaration fuel rest = .ok (vd, rest')) :
    vd.node_type = "VarDecl" := by
  cases rest with
  | nil => simp [Parser.variableDeclaration] at h
  | cons t ts =>
    simp only [Parser.variableDeclaration] at h
    split at h
    · cases h
    · rw [Except.ok.injEq, Prod.mk.injEq] at h
      rw [← h.1]
      rfl

theorem assignmentList_shape {fuel : Nat} {rest : List Token} {al : ASTNode}
    {rest' : List Token} (h : Parser.assignmentList fuel rest = .ok (al, rest')) :
    al.node_type = "AssignList" := by
  cases rest with
  | nil => simp [Parser.assignmentList] at h
  | cons t ts =>
    simp only [Parser.assignmentList] at h
    split at h
    · cases h
    · split at h
      · cases h
      · rw [Except.ok.injEq, Prod.mk.injEq] at h
        rw [← h.1]
        rfl

theorem program_shape {fuel : Nat} {rest : List Token} {node : ASTNode}
    {rest' : List Token} (h : Parser.program fuel rest = .ok (node, rest')) :
    node.node_type = "Program" ∧
    ∃ vd al, node.children = [vd, al] ∧
      vd.node_type = "VarDecl" ∧ al.node_type = "AssignList" := by
  simp only [Parser.program] at h
  split at h
  · cases h
  split at h
  · cases h
  rename_i vd rest₂ hvd
  split at h
  · cases h
  split at h
  · cases h
  split at h
  · cases h
  split at h
  · cases h
  rename_i al rest₆ hal
  split at h
  · cases h
  rw [Except.ok.injEq, Prod.mk.injEq] at h
  rw [← h.1]
  exact ⟨rfl, vd, al, rfl, variableDeclaration_shape hvd, assignmentList_shape hal⟩

/-- C5: for every token sequence on which `parse` succeeds, the returned
AST is a single `Program` node with exactly two children, the first a
`VarDecl` node and the second an `AssignList` node (on failure `parse`
returns an error, never a partial tree). -/
theorem c5_parse_program_shape (ts : List Token) (ast : ASTNode)
    (h : parse ts = .ok ast) :
    ast.node_type = "Program" ∧
    ∃ vd al, ast.children = [vd, al] ∧
      vd.node_type = "VarDecl" ∧ al.node_type = "AssignList" := by
  unfold parse at h
  split at h
  · cases h
  · rename_i node rest' hp
    rw [Except.ok.injEq] at h
    subst h
    exact program_shape hp

/-- Witness for C5: the shape property holds for the AST of the
end-to-end sample program. -/
theorem c5_parse_program_shape_witness :
    sampleAst.node_type = "Program" ∧
    ∃ vd al, sampleAst.children = [vd, al] ∧
      vd.node_type = "VarDecl" ∧ al.node_type = "AssignList" :=
  c5_parse_program_shape sampleToks sampleAst rfl

/-! ### Invariants of the parser

`errOrigin` says a structured parse error reports the kind/value and
line of an actual token of the input; the `_inv` lemmas establish it for
every parser rule, together with token consumption (needed both for the
fuel-sufficiency proof and to propagate error origins). -/

/-- A structured error's reported found-kind (or found-value) and line
belong to some token of `ts`; other failures carry no token data. -/
def errOrigin (ts : List Token) : ParseError → Prop
  | .mismatch _ fnd l => ∃ t ∈ ts, t.t_type = fnd ∧ t.line = l
  | .valueMismatch _ got l => ∃ t ∈ ts, t.value = got ∧ t.line = l
  | _ => True

theorem errOrigin_mono {ts ts' : List Token} {e : ParseError}
    (hs : ts' <:+ ts) (h : errOrigin ts' e) : errOrigin ts e := by
  cases e with
  | mismatch exp fnd l =>
    obtain ⟨t, ht, h1, h2⟩ := h
    exact ⟨t, hs.subset ht, h1, h2⟩
  | valueMismatch exp got l =>
    obtain ⟨t, ht, h1, h2⟩ := h
    exact ⟨t, hs.subset ht, h1, h2⟩
  | endOfInput e => trivial
  | noneAttr => trivial
  | strAttr => trivial
  | outOfFuel => trivial

theorem eat_ok {e : TokenType} {v : Option String} {rest rest' : List Token}
    (h : Parser.eat e v rest = .ok rest') :
    rest'.length < rest.length ∧ rest' <:+ rest := by
  cases rest with
  | nil => simp [Parser.eat] at h
  | cons t ts =>
    simp only [Parser.eat] at h
    split at h
    · split at h
      · split at h
        · rw [Except.ok.injEq] at h
          subst h
          exact ⟨by simp, List.suffix_cons t ts⟩
        · cases h
      · rw [Except.ok.injEq] at h
        subst h
        exact ⟨by simp, List.suffix_cons t ts⟩
    · cases h

theorem eat_err {e : TokenType} {v : Option String} {rest : List Token}
    {err : ParseError} (h : Parser.eat e v rest = .error err) :
    errOrigin rest err := by
  cases rest with
  | nil =>
    simp only [Parser.eat] at h
    rw [Except.error.injEq] at h
    subst h
    trivial
  | cons t ts =>
    simp only [Parser.eat] at h
    split at h
    · split at h
      · split at h
        · cases h
        · rw [Except.error.injEq] at h
          subst h
          exact ⟨t, List.mem_cons_self t ts, rfl, rfl⟩
      · cases h
    · rw [Except.error.injEq] at h
      subst h
      exact ⟨t, List.mem_cons_self t ts, rfl, rfl⟩

theorem eat_no_fuel {e : TokenType} {v : Option String} {rest : List Token}
    (h : Parser.eat e v rest = .error .outOfFuel) : False := by
  cases rest with
  | nil => simp [Parser.eat] at h
  | cons t ts =>
    simp only [Parser.eat] at h
    split at h
    · split at h
      · split at h <;> simp_all
      · cases h
    · simp_all

theorem identifier_ok {rest rest' : List Token} {n : ASTNode}
    (h : Parser.identifier rest = .ok (n, rest')) :
    rest'.length < rest.length ∧ rest' <:+ rest := by
  cases rest with
  | nil => simp [Parser.identifier] at h
  | cons t ts =>
    simp only [Parser.identifier] at h
    split at h
    · cases h
    · rename_i rest₁ heat
      rw [Except.ok.injEq, Prod.mk.injEq] at h
      rw [← h.2]
      exact eat_ok heat

theorem identifier_err {rest : List Token} {err : ParseError}
    (h : Parser.identifier rest = .error err) : errOrigin rest err := by
  cases rest with
  | nil =>
    simp only [Parser.identifier] at h
    rw [Except.error.injEq] at h
    subst h
    trivial
  | cons t ts =>
    simp only [Parser.identifier] at h
    split at h
    · rename_i e heat
      rw [Except.error.injEq] at h
      subst h
      exact eat_err heat
    · cases h

theorem identifier_no_fuel {rest : List Token}
    (h : Parser.identifier rest = .error .outOfFuel) : False := by
  cases rest with
  | nil => simp [Parser.identifier] at h
  | cons t ts =>
    simp only [Parser.identifier] at h
    split at h
    · rename_i e heat
      rw [Except.error.injEq] at h
      exact eat_no_fuel (h ▸ heat)
    · cases h

mutual

theorem expression_inv : ∀ (fuel : Nat) (rest : List Token),
    (∀ node rest', Parser.expression fuel rest = .ok (node, rest') →
      rest'.length < rest.length ∧ rest' <:+ rest) ∧
    (∀ e, Parser.expression fuel rest = .error e → errOrigin rest e)
  | 0, rest => by
    constructor
    · intro node rest' h
      simp only [Parser.expression] at h
      cases h
    · intro e h
      simp only [Parser.expression] at h
      rw [Except.error.injEq] at h
      subst h
      trivial
  | fuel + 1, rest => by
    constructor
    · intro node rest' h
      simp only [Parser.expression] at h
      split at h
      · cases h
      rename_i n₁ rest₁ hterm
      obtain ⟨hlt, hsfx⟩ := (term_inv fuel rest).1 n₁ rest₁ hterm
      obtain ⟨hle, hsfx2⟩ := (expressionLoop_inv fuel n₁ rest₁).1 node rest' h
      exact ⟨lt_of_le_of_lt hle hlt, hsfx2.trans hsfx⟩
    · intro e h
      simp only [Parser.expression] at h
      split at h
      · rename_i e₁ hterm
        rw [Except.error.injEq] at h
        subst h
        exact (term_inv fuel rest).2 e₁ hterm
      · rename_i n₁ rest₁ hterm
        exact errOrigin_mono ((term_inv fuel rest).1 n₁ rest₁ hterm).2
          ((expressionLoop_inv fuel n₁ rest₁).2 e h)

theorem expressionLoop_inv : ∀ (fuel : Nat) (node : ASTNode) (rest : List Token),
    (∀ node2 rest', Parser.expressionLoop fuel node rest = .ok (node2, rest') →
      rest'.length ≤ rest.length ∧ rest' <:+ rest) ∧
    (∀ e, Parser.expressionLoop fuel node rest = .error e → errOrigin rest e)
  | 0, node, rest => by
    constructor
    · intro node2 rest' h
      simp only [Parser.expressionLoop] at h
      cases h
    · intro e h
      simp only [Parser.expressionLoop] at h
      rw [Except.error.injEq] at h
      subst h
      trivial
  | fuel + 1, node, rest => by
    constructor
    · intro node2 rest' h
      simp only [Parser.expressionLoop] at h
      split at h
      · rw [Except.ok.injEq, Prod.mk.injEq] at h
        rw [← h.2]
        exact ⟨le_refl _, List.suffix_refl _⟩
      rename_i t rest₁
      split at h
      · split at h
        · cases h
        rename_i right rest₂ hterm
        obtain ⟨hlt, hsfx2⟩ := (term_inv fuel rest₁).1 right rest₂ hterm
        obtain ⟨hle, hsfx⟩ := (expressionLoop_inv fuel
          (.mk "BinOp" t.line (some t.value) [node, right]) rest₂).1 node2 rest' h
        constructor
        · simp only [List.length_cons]
          omega
        · exact (hsfx.trans hsfx2).trans (List.suffix_cons t rest₁)
      · rw [Except.ok.injEq, Prod.mk.injEq] at h
        rw [← h.2]
        exact ⟨le_refl _, List.suffix_refl _⟩
    · intro e h
      simp only [Parser.expressionLoop] at h
      split at h
      · cases h
      rename_i t rest₁
      split at h
      · split at h
        · rename_i e₁ hterm
          rw [Except.error.injEq] at h
          subst h
          exact errOrigin_mono (List.suffix_cons t rest₁) ((term_inv fuel rest₁).2 e₁ hterm)
        · rename_i right rest₂ hterm
          refine errOrigin_mono (List.suffix_cons t rest₁) (errOrigin_mono
            ((term_inv fuel rest₁).1 right rest₂ hterm).2
            ((expressionLoop_inv fuel
              (.mk "BinOp" t.line (some t.value) [node, right]) rest₂).2 e h))
      · cases h

theorem term_inv : ∀ (fuel : Nat) (rest : List Token),
    (∀ node rest', Parser.term fuel rest = .ok (node, rest') →
      rest'.length < rest.length ∧ rest' <:+ rest) ∧
    (∀ e, Parser.term fuel rest = .error e → errOrigin rest e)
  | 0, rest => by
    constructor
    · intro node rest' h
      simp only [Parser.term] at h
      cases h
    · intro e h
      simp only [Parser.term] at h
      rw [Except.error.injEq] at h
      subst h
      trivial
  | fuel + 1, rest => by
    constructor
    · intro node rest' h
      simp only [Parser.term] at h
      split at h
      · cases h
      rename_i n₁ rest₁ hfac
      obtain ⟨hlt, hsfx⟩ := (factor_inv fuel rest).1 n₁ rest₁ hfac
      obtain ⟨hle, hsfx2⟩ := (termLoop_inv fuel n₁ rest₁).1 node rest' h
      exact ⟨lt_of_le_of_lt hle hlt, hsfx2.trans hsfx⟩
    · intro e h
      simp only [Parser.term] at h
      split at h
      · rename_i e₁ hfac
        rw [Except.error.injEq] at h
        subst h
        exact (factor_inv fuel rest).2 e₁ hfac
      · rename_i n₁ rest₁ hfac
        exact errOrigin_mono ((factor_inv fuel rest).1 n₁ rest₁ hfac).2
          ((termLoop_inv fuel n₁ rest₁).2 e h)

theorem termLoop_inv : ∀ (fuel : Nat) (node : ASTNode) (rest : List Token),
    (∀ node2 rest', Parser.termLoop fuel node rest = .ok (node2, rest') →
      rest'.length ≤ rest.length ∧ rest' <:+ rest) ∧
    (∀ e, Parser.termLoop fuel node rest = .error e → errOrigin rest e)
  | 0, node, rest => by
    constructor
    · intro node2 rest' h
      simp only [Parser.termLoop] at h
      cases h
    · intro e h
      simp only [Parser.termLoop] at h
      rw [Except.error.injEq] at h
      subst h
      trivial
  | fuel + 1, node, rest => by
    constructor
    · intro node2 rest' h
      simp only [Parser.termLoop] at h
      split at h
      · rw [Except.ok.injEq, Prod.mk.injEq] at h
        rw [← h.2]
        exact ⟨le_refl _, List.suffix_refl _⟩
      rename_i t rest₁
      split at h
      · split at h
        · cases h
        rename_i right rest₂ hfac
        obtain ⟨hlt, hsfx2⟩ := (factor_inv fuel rest₁).1 right rest₂ hfac
        obtain ⟨hle, hsfx⟩ := (termLoop_inv fuel
          (.mk "BinOp" t.line (some t.value) [node, right]) rest₂).1 node2 rest' h
        constructor
        · simp only [List.length_cons]
          omega
        · exact (hsfx.trans hsfx2).trans (List.suffix_cons t rest₁)
      · rw [Except.ok.injEq, Prod.mk.injEq] at h
        rw [← h.2]
        exact ⟨le_refl _, List.suffix_refl _⟩
    · intro e h
      simp only [Parser.termLoop] at h
      split at h
      · cases h
      rename_i t rest₁
      split at h
      · split at h
        · rename_i e₁ hfac
          rw [Except.error.injEq] at h
          subst h
          exact errOrigin_mono (List.suffix_cons t rest₁) ((factor_inv fuel rest₁).2 e₁ hfac)
        · rename_i right rest₂ hfac
          refine errOrigin_mono (List.suffix_cons t rest₁) (errOrigin_mono
            ((factor_inv fuel rest₁).1 right rest₂ hfac).2
            ((termLoop_inv fuel
              (.mk "BinOp" t.line (some t.value) [node, right]) rest₂).2 e h))
      · cases h

theorem factor_inv : ∀ (fuel : Nat) (rest : List Token),
    (∀ node rest', Parser.factor fuel rest = .ok (node, rest') →
      rest'.length < rest.length ∧ rest' <:+ rest) ∧
    (∀ e, Parser.factor fuel rest = .error e → errOrigin rest e)
  | 0, rest => by
    constructor
    · intro node rest' h
      simp only [Parser.factor] at h
      cases h
    · intro e h
      simp only [Parser.factor] at h
      rw [Except.error.injEq] at h
      subst h
      trivial
  | fuel + 1, rest => by
    constructor
    · intro node rest' h
      simp only [Parser.factor] at h
      split at h
      · cases h
      rename_i t rest₁
      split at h
      · split at h
        · cases h
        rename_i n₁ rest₂ hexp
        split at h
        · cases h
        rename_i rest₃ heat
        rw [Except.ok.injEq, Prod.mk.injEq] at h
        rw [← h.2]
        obtain ⟨l2, s2⟩ := (expression_inv fuel rest₁).1 n₁ rest₂ hexp
        obtain ⟨l3, s3⟩ := eat_ok heat
        refine ⟨?_, (s3.trans s2).trans (List.suffix_cons t rest₁)⟩
        simp only [List.length_cons]
        omega
      · split at h
        · split at h
          · cases h
          rename_i child rest₂ hfac
          rw [Except.ok.injEq, Prod.mk.injEq] at h
          rw [← h.2]
          obtain ⟨l2, s2⟩ := (factor_inv fuel rest₁).1 child rest₂ hfac
          refine ⟨?_, s2.trans (List.suffix_cons t rest₁)⟩
          simp only [List.length_cons]
          omega
        · split at h
          · rw [Except.ok.injEq, Prod.mk.injEq] at h
            rw [← h.2]
            exact ⟨by simp, List.suffix_cons t rest₁⟩
          · split at h
            · rw [Except.ok.injEq, Prod.mk.injEq] at h
              rw [← h.2]
              exact ⟨by simp, List.suffix_cons t rest₁⟩
            · cases h
    · intro e h
      simp only [Parser.factor] at h
      split at h
      · rw [Except.error.injEq] at h
        subst h
        trivial
      rename_i t rest₁
      split at h
      · split at h
        · rename_i e₁ hexp
          rw [Except.error.injEq] at h
          subst h
          exact errOrigin_mono (List.suffix_cons t rest₁) ((expression_inv fuel rest₁).2 e₁ hexp)
        · rename_i n₁ rest₂ hexp
          split at h
          · rename_i e₁ heat
            rw [Except.error.injEq] at h
            subst h
            refine errOrigin_mono (List.suffix_cons t rest₁) (errOrigin_mono
              ((expression_inv fuel rest₁).1 n₁ rest₂ hexp).2 (eat_err heat))
          · cases h
      · split at h
        · split at h
          · rename_i e₁ hfac
            rw [Except.error.injEq] at h
            subst h
            exact errOrigin_mono (List.suffix_cons t rest₁) ((factor_inv fuel rest₁).2 e₁ hfac)
          · cases h
        · split at h
          · cases h
          · split at h
            · cases h
            · rw [Except.error.injEq] at h
              subst h
              trivial

end

theorem identifierListLoop_inv (fuel : Nat) : ∀ (kids : List ASTNode) (rest : List Token),
    (∀ kids' rest', Parser.identifierListLoop fuel kids rest = .ok (kids', rest') →
      rest'.length ≤ rest.length ∧ rest' <:+ rest) ∧
    (∀ e, Parser.identifierListLoop fuel kids rest = .error e → errOrigin rest e) := by
  induction fuel with
  | zero =>
    intro kids rest
    constructor
    · intro kids' rest' h
      simp only [Parser.identifierListLoop] at h
      cases h
    · intro e h
      simp only [Parser.identifierListLoop] at h
      rw [Except.error.injEq] at h
      subst h
      trivial
  | succ fuel ih =>
    intro kids rest
    constructor
    · intro kids' rest' h
      simp only [Parser.identifierListLoop] at h
      split at h
      · rw [Except.ok.injEq, Prod.mk.injEq] at h
        rw [← h.2]
        exact ⟨le_refl _, List.suffix_refl _⟩
      rename_i t rest₁
      split at h
      · split at h
        · cases h
        rename_i n rest₂ hident
        obtain ⟨hle, hsfx⟩ := (ih (kids ++ [n]) rest₂).1 kids' rest' h
        obtain ⟨hlt, hsfx2⟩ := identifier_ok hident
        constructor
        · simp only [List.length_cons]
          omega
        · exact (hsfx.trans hsfx2).trans (List.suffix_cons t rest₁)
      · rw [Except.ok.injEq, Prod.mk.injEq] at h
        rw [← h.2]
        exact ⟨le_refl _, List.suffix_refl _⟩
    · intro e h
      simp only [Parser.identifierListLoop] at h
      split at h
      · cases h
      rename_i t rest₁
      split at h
      · split at h
        · rename_i e₁ hident
          rw [Except.error.injEq] at h
          subst h
          exact errOrigin_mono (List.suffix_cons t rest₁) (identifier_err hident)
        · rename_i n rest₂ hident
          exact errOrigin_mono (List.suffix_cons t rest₁) (errOrigin_mono
            (identifier_ok hident).2 ((ih (kids ++ [n]) rest₂).2 e h))
      · cases h

theorem identifierList_inv (fuel : Nat) (rest : List Token) :
    (∀ node rest', Parser.identifierList fuel rest = .ok (node, rest') →
      rest'.length < rest.length ∧ rest' <:+ rest) ∧
    (∀ e, Parser.identifierList fuel rest = .error e → errOrigin rest e) := by
  constructor
  · intro node rest' h
    simp only [Parser.identifierList] at h
    split at h
    · cases h
    rename_i first rest₁ hident
    split at h
    · cases h
    rename_i kids rest₂ hloop
    split at h
    · cases h
    rename_i rest₃ heat
    rw [Except.ok.injEq, Prod.mk.injEq] at h
    rw [← h.2]
    obtain ⟨l1, s1⟩ := identifier_ok hident
    obtain ⟨l2, s2⟩ := (identifierListLoop_inv fuel [first] rest₁).1 kids rest₂ hloop
    obtain ⟨l3, s3⟩ := eat_ok heat
    exact ⟨by omega, (s3.trans s2).trans s1⟩
  · intro e h
    simp only [Parser.identifierList] at h
    split at h
    · rename_i e₁ hident
      rw [Except.error.injEq] at h
      subst h
      exact identifier_err hident
    rename_i first rest₁ hident
    split at h
    · rename_i e₁ hloop
      rw [Except.error.injEq] at h
      subst h
      exact errOrigin_mono (identifier_ok hident).2
        ((identifierListLoop_inv fuel [first] rest₁).2 e₁ hloop)
    rename_i kids rest₂ hloop
    split at h
    · rename_i e₁ heat
      rw [Except.error.injEq] at h
      subst h
      exact errOrigin_mono (identifier_ok hident).2 (errOrigin_mono
        ((identifierListLoop_inv fuel [first] rest₁).1 kids rest₂ hloop).2 (eat_err heat))
    · cases h

theorem variableDeclaration_inv (fuel : Nat) (rest : List Token) :
    (∀ node rest', Parser.variableDeclaration fuel rest = .ok (node, rest') →
      rest'.length < rest.length ∧ rest' <:+ rest) ∧
    (∀ e, Parser.variableDeclaration fuel rest = .error e → errOrigin rest e) := by
  cases rest with
  | nil =>
    constructor
    · intro node rest' h
      simp [Parser.variableDeclaration] at h
    · intro e h
      simp only [Parser.variableDeclaration] at h
      rw [Except.error.injEq] at h
      subst h
      trivial
  | cons t ts =>
    constructor
    · intro node rest' h
      simp only [Parser.variableDeclaration] at h
      split at h
      · cases h
      rename_i idl rest₂ hil
      rw [Except.ok.injEq, Prod.mk.injEq] at h
      rw [← h.2]
      exact (identifierList_inv fuel (t :: ts)).1 idl rest₂ hil
    · intro e h
      simp only [Parser.variableDeclaration] at h
      split at h
      · rename_i e₁ hil
        rw [Except.error.injEq] at h
        subst h
        exact (identifierList_inv fuel (t :: ts)).2 e₁ hil
      · cases h

theorem assignment_inv (fuel : Nat) (rest : List Token) :
    (∀ node rest', Parser.assignment fuel rest = .ok (node, rest') →
      rest'.length < rest.length ∧ rest' <:+ rest) ∧
    (∀ e, Parser.assignment fuel rest = .error e → errOrigin rest e) := by
  cases rest with
  | nil =>
    constructor
    · intro node rest' h
      simp [Parser.assignment] at h
    · intro e h
      simp only [Parser.assignment] at h
      rw [Except.error.injEq] at h
      subst h
      trivial
  | cons t ts =>
    constructor
    · intro node rest' h
      simp only [Parser.assignment] at h
      split at h
      · cases h
      rename_i idn rest₁ hident
      split at h
      · cases h
      rename_i rest₂ heq
      split at h
      · cases h
      rename_i ex rest₃ hexp
      split at h
      · cases h
      rename_i rest₄ hsemi
      split at h
      · cases h
      rename_i rest₅ hnl
      rw [Except.ok.injEq, Prod.mk.injEq] at h
      rw [← h.2]
      obtain ⟨l1, s1⟩ := identifier_ok hident
      obtain ⟨l2, s2⟩ := eat_ok heq
      obtain ⟨l3, s3⟩ := (expression_inv fuel rest₂).1 ex rest₃ hexp
      obtain ⟨l4, s4⟩ := eat_ok hsemi
      obtain ⟨l5, s5⟩ := eat_ok hnl
      exact ⟨by omega, ((((s5.trans s4).trans s3).trans s2).trans s1)⟩
    · intro e h
      simp only [Parser.assignment] at h
      split at h
      · rename_i e₁ hident
        rw [Except.error.injEq] at h
        subst h
        exact identifier_err hident
      rename_i idn rest₁ hident
      split at h
      · rename_i e₁ heq
        rw [Except.error.injEq] at h
        subst h
        exact errOrigin_mono (identifier_ok hident).2 (eat_err heq)
      rename_i rest₂ heq
      split at h
      · rename_i e₁ hexp
        rw [Except.error.injEq] at h
        subst h
        exact errOrigin_mono ((eat_ok heq).2.trans (identifier_ok hident).2)
          ((expression_inv fuel rest₂).2 e₁ hexp)
      rename_i ex rest₃ hexp
      split at h
      · rename_i e₁ hsemi
        rw [Except.error.injEq] at h
        subst h
        exact errOrigin_mono ((((expression_inv fuel rest₂).1 ex rest₃ hexp).2.trans
          (eat_ok heq).2).trans (identifier_ok hident).2) (eat_err hsemi)
      rename_i rest₄ hsemi
      split at h
      · rename_i e₁ hnl
        rw [Except.error.injEq] at h
        subst h
        exact errOrigin_mono (((eat_ok hsemi).2.trans
          (((expression_inv fuel rest₂).1 ex rest₃ hexp).2.trans
            (eat_ok heq).2)).trans (identifier_ok hident).2) (eat_err hnl)
      · cases h

theorem assignmentListLoop_inv (fuel : Nat) : ∀ (kids : List ASTNode) (rest : List Token),
    (∀ kids' rest', Parser.assignmentListLoop fuel kids rest = .ok (kids', rest') →
      rest'.length ≤ rest.length ∧ rest' <:+ rest) ∧
    (∀ e, Parser.assignmentListLoop fuel kids rest = .error e → errOrigin rest e) := by
  induction fuel with
  | zero =>
    intro kids rest
    constructor
    · intro kids' rest' h
      simp only [Parser.assignmentListLoop] at h
      cases h
    · intro e h
      simp only [Parser.assignmentListLoop] at h
      rw [Except.error.injEq] at h
      subst h
      trivial
  | succ fuel ih =>
    intro kids rest
    constructor
    · intro kids' rest' h
      simp only [Parser.assignmentListLoop] at h
      split at h
      · rw [Except.ok.injEq, Prod.mk.injEq] at h
        rw [← h.2]
        exact ⟨le_refl _, List.suffix_refl _⟩
      rename_i t rest₁
      split at h
      · split at h
        · cases h
        rename_i a rest₂ hasn
        obtain ⟨hle, hsfx⟩ := (ih (kids ++ [a]) rest₂).1 kids' rest' h
        obtain ⟨hlt, hsfx2⟩ := (assignment_inv fuel (t :: rest₁)).1 a rest₂ hasn
        exact ⟨by omega, hsfx.trans hsfx2⟩
      · rw [Except.ok.injEq, Prod.mk.injEq] at h
        rw [← h.2]
        exact ⟨le_refl _, List.suffix_refl _⟩
    · intro e h
      simp only [Parser.assignmentListLoop] at h
      split at h
      · cases h
      rename_i t rest₁
      split at h
      · split at h
        · rename_i e₁ hasn
          rw [Except.error.injEq] at h
          subst h
          exact (assignment_inv fuel (t :: rest₁)).2 e₁ hasn
        · rename_i a rest₂ hasn
          exact errOrigin_mono ((assignment_inv fuel (t :: rest₁)).1 a rest₂ hasn).2
            ((ih (kids ++ [a]) rest₂).2 e h)
      · cases h

theorem assignmentList_inv (fuel : Nat) (rest : List Token) :
    (∀ node rest', Parser.assignmentList fuel rest = .ok (node, rest') →
      rest'.length < rest.length ∧ rest' <:+ rest) ∧
    (∀ e, Parser.assignmentList fuel rest = .error e → errOrigin rest e) := by
  cases rest with
  | nil =>
    constructor
    · intro node rest' h
      simp [Parser.assignmentList] at h
    · intro e h
      simp only [Parser.assignmentList] at h
      rw [Except.error.injEq] at h
      subst h
      trivial
  | cons t ts =>
    constructor
    · intro node rest' h
      simp only [Parser.assignmentList] at h
      split at h
      · cases h
      rename_i a rest₁ hasn
      split at h
      · cases h
      rename_i kids rest₂ hloop
      rw [Except.ok.injEq, Prod.mk.injEq] at h
      rw [← h.2]
      obtain ⟨l1, s1⟩ := (assignment_inv fuel (t :: ts)).1 a rest₁ hasn
      obtain ⟨l2, s2⟩ := (assignmentListLoop_inv fuel [a] rest₁).1 kids rest₂ hloop
      exact ⟨by omega, s2.trans s1⟩
    · intro e h
      simp only [Parser.assignmentList] at h
      split at h
      · rename_i e₁ hasn
        rw [Except.error.injEq] at h
        subst h
        exact (assignment_inv fuel (t :: ts)).2 e₁ hasn
      rename_i a rest₁ hasn
      split at h
      · rename_i e₁ hloop
        rw [Except.error.injEq] at h
        subst h
        exact errOrigin_mono ((assignment_inv fuel (t :: ts)).1 a rest₁ hasn).2
          ((assignmentListLoop_inv fuel [a] rest₁).2 e₁ hloop)
      · cases h

theorem program_inv (fuel : Nat) (rest : List Token) :
    (∀ e, Parser.program fuel rest = .error e → errOrigin rest e) := by
  intro e h
  simp only [Parser.program] at h
  split at h
  · rename_i e₁ h1
    rw [Except.error.injEq] at h
    subst h
    exact eat_err h1
  rename_i rest₁ h1
  split at h
  · rename_i e₁ hvd
    rw [Except.error.injEq] at h
    subst h
    exact errOrigin_mono (eat_ok h1).2 ((variableDeclaration_inv fuel rest₁).2 e₁ hvd)
  rename_i vd rest₂ hvd
  split at h
  · rename_i e₁ h3
    rw [Except.error.injEq] at h
    subst h
    exact errOrigin_mono (((variableDeclaration_inv fuel rest₁).1 vd rest₂ hvd).2.trans
      (eat_ok h1).2) (eat_err h3)
  rename_i rest₃ h3
  split at h
  · rename_i e₁ h4
    rw [Except.error.injEq] at h
    subst h
    exact errOrigin_mono ((eat_ok h3).2.trans
      (((variableDeclaration_inv fuel rest₁).1 vd rest₂ hvd).2.trans (eat_ok h1).2))
      (eat_err h4)
  rename_i rest₄ h4
  split at h
  · rename_i e₁ h5
    rw [Except.error.injEq] at h
    subst h
    exact errOrigin_mono ((eat_ok h4).2.trans ((eat_ok h3).2.trans
      (((variableDeclaration_inv fuel rest₁).1 vd rest₂ hvd).2.trans (eat_ok h1).2)))
      (eat_err h5)
  rename_i rest₅ h5
  split at h
  · rename_i e₁ hal
    rw [Except.error.injEq] at h
    subst h
    exact errOrigin_mono ((eat_ok h5).2.trans ((eat_ok h4).2.trans ((eat_ok h3).2.trans
      (((variableDeclaration_inv fuel rest₁).1 vd rest₂ hvd).2.trans (eat_ok h1).2))))
      ((assignmentList_inv fuel rest₅).2 e₁ hal)
  rename_i al rest₆ hal
  split at h
  · rename_i e₁ h7
    rw [Except.error.injEq] at h
    subst h
    exact errOrigin_mono (((assignmentList_inv fuel rest₅).1 al rest₆ hal).2.trans
      ((eat_ok h5).2.trans ((eat_ok h4).2.trans ((eat_ok h3).2.trans
      (((variableDeclaration_inv fuel rest₁).1 vd rest₂ hvd).2.trans (eat_ok h1).2)))))
      (eat_err h7)
  · cases h

theorem parse_err_origin {ts : List Token} {e : ParseError}
    (h : parse ts = .error e) : errOrigin ts e := by
  unfold parse at h
  split at h
  · rename_i e₁ hp
    rw [Except.error.injEq] at h
    subst h
    exact program_inv (parseFuel ts) ts e₁ hp
  · cases h

/-! ### Fuel sufficiency

The fuel threaded through the parser is an artifact of the embedding:
the lemmas below show that with the fuel budget `parseFuel` the
truncating `outOfFuel` branch is never reached, i.e. the modelled parser
is the total recursive-descent parser of the source. -/

mutual

theorem factor_fuel : ∀ (fuel : Nat) (rest : List Token),
    3 * rest.length + 4 ≤ fuel → Parser.factor fuel rest ≠ .error .outOfFuel
  | 0, rest => by
    intro hb
    omega
  | fuel + 1, rest => by
    intro hb h
    simp only [Parser.factor] at h
    split at h
    · simp at h
    rename_i t rest₁
    simp only [List.length_cons] at hb
    split at h
    · split at h
      · rename_i e₁ hexp
        rw [Except.error.injEq] at h
        subst h
        exact expression_fuel fuel rest₁ (by omega) hexp
      rename_i n₁ rest₂ hexp
      split at h
      · rename_i e₁ heat
        rw [Except.error.injEq] at h
        subst h
        exact eat_no_fuel heat
      · cases h
    · split at h
      · split at h
        · rename_i e₁ hfac
          rw [Except.error.injEq] at h
          subst h
          exact factor_fuel fuel rest₁ (by omega) hfac
        · cases h
      · split at h
        · cases h
        · split at h
          · cases h
          · simp at h

theorem term_fuel : ∀ (fuel : Nat) (rest : List Token),
    3 * rest.length + 5 ≤ fuel → Parser.term fuel rest ≠ .error .outOfFuel
  | 0, rest => by
    intro hb
    omega
  | fuel + 1, rest => by
    intro hb h
    simp only [Parser.term] at h
    split at h
    · rename_i e₁ hfac
      rw [Except.error.injEq] at h
      subst h
      exact factor_fuel fuel rest (by omega) hfac
    · rename_i n₁ rest₁ hfac
      have hlt := ((factor_inv fuel rest).1 n₁ rest₁ hfac).1
      exact termLoop_fuel fuel n₁ rest₁ (by omega) h

theorem termLoop_fuel : ∀ (fuel : Nat) (node : ASTNode) (rest : List Token),
    3 * rest.length + 5 ≤ fuel → Parser.termLoop fuel node rest ≠ .error .outOfFuel
  | 0, node, rest => by
    intro hb
    omega
  | fuel + 1, node, rest => by
    intro hb h
    simp only [Parser.termLoop] at h
    split at h
    · cases h
    rename_i t rest₁
    simp only [List.length_cons] at hb
    split at h
    · split at h
      · rename_i e₁ hfac
        rw [Except.error.injEq] at h
        subst h
        exact factor_fuel fuel rest₁ (by omega) hfac
      · rename_i right rest₂ hfac
        have hlt := ((factor_inv fuel rest₁).1 right rest₂ hfac).1
        exact termLoop_fuel fuel (.mk "BinOp" t.line (some t.value) [node, right]) rest₂
          (by omega) h
    · cases h

theorem expression_fuel : ∀ (fuel : Nat) (rest : List Token),
    3 * rest.length + 6 ≤ fuel → Parser.expression fuel rest ≠ .error .outOfFuel
  | 0, rest => by
    intro hb
    omega
  | fuel + 1, rest => by
    intro hb h
    simp only [Parser.expression] at h
    split at h
    · rename_i e₁ hterm
      rw [Except.error.injEq] at h
      subst h
      exact term_fuel fuel rest (by omega) hterm
    · rename_i n₁ rest₁ hterm
      have hlt := ((term_inv fuel rest).1 n₁ rest₁ hterm).1
      exact expressionLoop_fuel fuel n₁ rest₁ (by omega) h

theorem expressionLoop_fuel : ∀ (fuel : Nat) (node : ASTNode) (rest : List Token),
    3 * rest.length + 6 ≤ fuel → Parser.expressionLoop fuel node rest ≠ .error .outOfFuel
  | 0, node, rest => by
    intro hb
    omega
  | fuel + 1, node, rest => by
    intro hb h
    simp only [Parser.expressionLoop] at h
    split at h
    · cases h
    rename_i t rest₁
    simp only [List.length_cons] at hb
    split at h
    · split at h
      · rename_i e₁ hterm
        rw [Except.error.injEq] at h
        subst h
        exact term_fuel fuel rest₁ (by omega) hterm
      · rename_i right rest₂ hterm
        have hlt := ((term_inv fuel rest₁).1 right rest₂ hterm).1
        exact expressionLoop_fuel fuel (.mk "BinOp" t.line (some t.value) [node, right]) rest₂
          (by omega) h
    · cases h

end

theorem identifierListLoop_fuel (fuel : Nat) : ∀ (kids : List ASTNode) (rest : List Token),
    rest.length + 1 ≤ fuel → Parser.identifierListLoop fuel kids rest ≠ .error .outOfFuel := by
  induction fuel with
  | zero =>
    intro kids rest hb
    omega
  | succ fuel ih =>
    intro kids rest hb h
    simp only [Parser.identifierListLoop] at h
    split at h
    · cases h
    rename_i t rest₁
    simp only [List.length_cons] at hb
    split at h
    · split at h
      · rename_i e₁ hident
        rw [Except.error.injEq] at h
        subst h
        exact identifier_no_fuel hident
      · rename_i n rest₂ hident
        have hlt := (identifier_ok hident).1
        exact ih (kids ++ [n]) rest₂ (by omega) h
    · cases h

theorem identifierList_fuel (fuel : Nat) (rest : List Token)
    (hb : rest.length ≤ fuel) : Parser.identifierList fuel rest ≠ .error .outOfFuel := by
  intro h
  simp only [Parser.identifierList] at h
  split at h
  · rename_i e₁ hident
    rw [Except.error.injEq] at h
    subst h
    exact identifier_no_fuel hident
  rename_i first rest₁ hident
  have hlt := (identifier_ok hident).1
  split at h
  · rename_i e₁ hloop
    rw [Except.error.injEq] at h
    subst h
    exact identifierListLoop_fuel fuel [first] rest₁ (by omega) hloop
  rename_i kids rest₂ hloop
  split at h
  · rename_i e₁ heat
    rw [Except.error.injEq] at h
    subst h
    exact eat_no_fuel heat
  · cases h

theorem variableDeclaration_fuel (fuel : Nat) (rest : List Token)
    (hb : rest.length ≤ fuel) :
    Parser.variableDeclaration fuel rest ≠ .error .outOfFuel := by
  intro h
  cases rest with
  | nil => simp [Parser.variableDeclaration] at h
  | cons t ts =>
    simp only [Parser.variableDeclaration] at h
    split at h
    · rename_i e₁ hil
      rw [Except.error.injEq] at h
      subst h
      exact identifierList_fuel fuel (t :: ts) hb hil
    · cases h

theorem assignment_fuel (fuel : Nat) (rest : List Token)
    (hb : 3 * rest.length + 6 ≤ fuel) :
    Parser.assignment fuel rest ≠ .error .outOfFuel := by
  intro h
  cases rest with
  | nil => simp [Parser.assignment] at h
  | cons t ts =>
    simp only [Parser.assignment] at h
    split at h
    · rename_i e₁ hident
      rw [Except.error.injEq] at h
      subst h
      exact identifier_no_fuel hident
    rename_i idn rest₁ hident
    have h1 := (identifier_ok hident).1
    split at h
    · rename_i e₁ heq
      rw [Except.error.injEq] at h
      subst h
      exact eat_no_fuel heq
    rename_i rest₂ heq
    have h2 := (eat_ok heq).1
    split at h
    · rename_i e₁ hexp
      rw [Except.error.injEq] at h
      subst h
      exact expression_fuel fuel rest₂ (by omega) hexp
    rename_i ex rest₃ hexp
    split at h
    · rename_i e₁ hsemi
      rw [Except.error.injEq] at h
      subst h
      exact eat_no_fuel hsemi
    rename_i rest₄ hsemi
    split at h
    · rename_i e₁ hnl
      rw [Except.error.injEq] at h
      subst h
      exact eat_no_fuel hnl
    · cases h

theorem assignmentListLoop_fuel (fuel : Nat) : ∀ (kids : List ASTNode) (rest : List Token),
    3 * rest.length + 7 ≤ fuel →
    Parser.assignmentListLoop fuel kids rest ≠ .error .outOfFuel := by
  induction fuel with
  | zero =>
    intro kids rest hb
    omega
  | succ fuel ih =>
    intro kids rest hb h
    simp only [Parser.assignmentListLoop] at h
    split at h
    · cases h
    rename_i t rest₁
    simp only [List.length_cons] at hb
    split at h
    · split at h
      · rename_i e₁ hasn
        rw [Except.error.injEq] at h
        subst h
        exact assignment_fuel fuel (t :: rest₁) (by simp only [List.length_cons]; omega) hasn
      · rename_i a rest₂ hasn
        have hlt := ((assignment_inv fuel (t :: rest₁)).1 a rest₂ hasn).1
        simp only [List.length_cons] at hlt
        exact ih (kids ++ [a]) rest₂ (by omega) h
    · cases h

theorem assignmentList_fuel (fuel : Nat) (rest : List Token)
    (hb : 3 * rest.length + 7 ≤ fuel) :
    Parser.assignmentList fuel rest ≠ .error .outOfFuel := by
  intro h
  cases rest with
  | nil => simp [Parser.assignmentList] at h
  | cons t ts =>
    simp only [Parser.assignmentList] at h
    split at h
    · rename_i e₁ hasn
      rw [Except.error.injEq] at h
      subst h
      exact assignment_fuel fuel (t :: ts) (by omega) hasn
    rename_i a rest₁ hasn
    have h1 := ((assignment_inv fuel (t :: ts)).1 a rest₁ hasn).1
    split at h
    · rename_i e₁ hloop
      rw [Except.error.injEq] at h
      subst h
      simp only [List.length_cons] at h1 hb
      exact assignmentListLoop_fuel fuel [a] rest₁ (by omega) hloop
    · cases h

theorem program_fuel (fuel : Nat) (rest : List Token)
    (hb : 3 * rest.length + 7 ≤ fuel) :
    Parser.program fuel rest ≠ .error .outOfFuel := by
  intro h
  simp only [Parser.program] at h
  split at h
  · rename_i e₁ h1
    rw [Except.error.injEq] at h
    subst h
    exact eat_no_fuel h1
  rename_i rest₁ h1
  have l1 := (eat_ok h1).1
  split at h
  · rename_i e₁ hvd
    rw [Except.error.injEq] at h
    subst h
    exact variableDeclaration_fuel fuel rest₁ (by omega) hvd
  rename_i vd rest₂ hvd
  have l2 := ((variableDeclaration_inv fuel rest₁).1 vd rest₂ hvd).1
  split at h
  · rename_i e₁ h3
    rw [Except.error.injEq] at h
    subst h
    exact eat_no_fuel h3
  rename_i rest₃ h3
  have l3 := (eat_ok h3).1
  split at h
  · rename_i e₁ h4
    rw [Except.error.injEq] at h
    subst h
    exact eat_no_fuel h4
  rename_i rest₄ h4
  have l4 := (eat_ok h4).1
  split at h
  · rename_i e₁ h5
    rw [Except.error.injEq] at h
    subst h
    exact eat_no_fuel h5
  rename_i rest₅ h5
  have l5 := (eat_ok h5).1
  split at h
  · rename_i e₁ hal
    rw [Except.error.injEq] at h
    subst h
    exact assignmentList_fuel fuel rest₅ (by omega) hal
  rename_i al rest₆ hal
  split at h
  · rename_i e₁ h7
    rw [Except.error.injEq] at h
    subst h
    exact eat_no_fuel h7
  · cases h

theorem parse_no_outOfFuel (ts : List Token) : parse ts ≠ .error .outOfFuel := by
  intro h
  unfold parse at h
  split at h
  · rename_i e₁ hp
    rw [Except.error.injEq] at h
    subst h
    exact program_fuel (parseFuel ts) ts (by unfold parseFuel; omega) hp
  · cases h

/-- C4 (amended): for every token sequence the modelled parser is total
(the embedding's fuel bound is never hit), and every structured
`mismatch`/`valueMismatch` syntax error reports the found token kind (or
value) and line of an actual token of the input, with the structured
`expected, end of input` error raised when a consumption check hits the
exhausted sequence (shown for the empty input); exhaustion at a rule
that first reads the current token's attributes, and the rule-violation
path of `__factor`, instead fail with the unstructured attribute-error
failures exhibited in the counterexample. -/
theorem c4_parse_failures_amended :
    (∀ ts : List Token, parse ts ≠ .error .outOfFuel) ∧
    (∀ ts exp fnd l, parse ts = .error (.mismatch exp fnd l) →
      ∃ t ∈ ts, t.t_type = fnd ∧ t.line = l) ∧
    (∀ ts exp got l, parse ts = .error (.valueMismatch exp got l) →
      ∃ t ∈ ts, t.value = got ∧ t.line = l) ∧
    parse [] = .error (.endOfInput "KEYWORD") := by
  refine ⟨parse_no_outOfFuel, ?_, ?_, rfl⟩
  · intro ts exp fnd l h
    exact parse_err_origin h
  · intro ts exp got l h
    exact parse_err_origin h

/-- Witness for C4 (amended): instantiated on the re-scanned emitted
sample text, whose parse fails with a `mismatch` reporting the kind and
line of its seventh token. -/
theorem c4_parse_failures_amended_witness :
    ∃ t ∈ sampleOutToks, t.t_type = TokenType.IDENTIFIER ∧ t.line = 2 :=
  c4_parse_failures_amended.2.1 sampleOutToks "KEYWORD" .IDENTIFIER 2 rfl

/-! ### Invariants of the scanner -/

/-- Number of line-break tokens in a token list. -/
def newlineCount (ts : List Token) : Nat :=
  ts.countP (fun t => t.t_type == TokenType.NEWLINE)

/-- Every token's line is 1 plus the number of line-break tokens before
it in the list. -/
def lineNumbering (ts : List Token) : Prop :=
  ∀ i, (h : i < ts.length) → (ts[i]).line = 1 + newlineCount (ts.take i)

/-- A `-`-valued token is a unary-operator token exactly when it is the
first retained token or the immediately preceding retained token's kind
is in `minusUnaryPreceders`. -/
def minusClassified (ts : List Token) : Prop :=
  (∀ h : 0 < ts.length, (ts[0]).value = "-" → (ts[0]).t_type = .UNARY_OPERATOR) ∧
  (∀ i, (h : i + 1 < ts.length) → (ts[i + 1]).value = "-" →
    ((ts[i + 1]).t_type = .UNARY_OPERATOR ↔ (ts[i]).t_type ∈ minusUnaryPreceders))

theorem newlineCount_append_not {toks : List Token} {b : Token}
    (hb : (b.t_type == TokenType.NEWLINE) = false) :
    newlineCount (toks ++ [b]) = newlineCount toks := by
  unfold newlineCount
  rw [List.countP_append]
  simp [hb]

theorem newlineCount_append_nl {toks : List Token} {b : Token}
    (hb : (b.t_type == TokenType.NEWLINE) = true) :
    newlineCount (toks ++ [b]) = newlineCount toks + 1 := by
  unfold newlineCount
  rw [List.countP_append]
  simp [hb]

theorem lineNumbering_append {toks : List Token} {b : Token}
    (hP : lineNumbering toks) (hb : b.line = 1 + newlineCount toks) :
    lineNumbering (toks ++ [b]) := by
  intro i h
  rcases Nat.lt_or_ge i toks.length with hi | hi
  · rw [List.getElem_append_left hi, List.take_append_of_le_length (le_of_lt hi)]
    exact hP i hi
  · have hil : i = toks.length := by
      simp only [List.length_append, List.length_cons, List.length_nil] at h
      omega
    subst hil
    rw [List.getElem_concat_length toks b _ rfl, List.take_append_of_le_length (le_refl _),
      List.take_length]
    exact hb

theorem minusClassified_append {toks : List Token} {b : Token}
    (hM : minusClassified toks)
    (hb : b.value = "-" →
      (b.t_type = .UNARY_OPERATOR ↔
        (toks = [] ∨ ∃ tk, toks.getLast? = some tk ∧ tk.t_type ∈ minusUnaryPreceders))) :
    minusClassified (toks ++ [b]) := by
  constructor
  · intro h0 hv
    cases toks with
    | nil =>
      simp only [List.nil_append] at hv ⊢
      exact (hb hv).mpr (Or.inl rfl)
    | cons t ts' =>
      rw [List.getElem_append_left (by simp)] at hv ⊢
      exact hM.1 (by simp) hv
  · intro i hi hv
    have hlen : (toks ++ [b]).length = toks.length + 1 := by simp
    rcases Nat.lt_or_ge (i + 1) toks.length with h1 | h1
    · rw [List.getElem_append_left h1] at hv ⊢
      rw [List.getElem_append_left (by omega)]
      exact hM.2 i h1 hv
    · have h2 : i + 1 = toks.length := by omega
      have hilt : i < toks.length := by omega
      rw [List.getElem_concat_length toks b (i + 1) h2] at hv ⊢
      have hprev : (toks ++ [b])[i] = toks[i] :=
        List.getElem_append_left (by omega)
      rw [hprev, hb hv]
      have hne : toks ≠ [] := by
        intro hc
        rw [hc] at h2
        simp at h2
      have hlast : toks.getLast? = some toks[i] := by
        rw [List.getLast?_eq_getElem?]
        have : toks.length - 1 = i := by omega
        rw [this]
        exact List.getElem?_eq_getElem (by omega)
      constructor
      · intro hor
        rcases hor with hor | ⟨tk, htk, hmem⟩
        · exact absurd hor hne
        · rw [hlast] at htk
          rw [Option.some.injEq] at htk
          rw [htk]
          exact hmem
      · intro hmem
        exact Or.inr ⟨_, hlast, hmem⟩

theorem keywordAt_values {prev : Option Char} {cs : List Char} {kw : String}
    {r : List Char} (h : keywordAt prev cs = some (kw, r)) :
    kw = "Var" ∨ kw = "Begin" ∨ kw = "End" := by
  unfold keywordAt at h
  split at h
  · split at h
    · rw [Option.some.injEq, Prod.mk.injEq] at h
      exact Or.inl h.1.symm
    · split at h
      · rw [Option.some.injEq, Prod.mk.injEq] at h
        exact Or.inr (Or.inl h.1.symm)
      · split at h
        · rw [Option.some.injEq, Prod.mk.injEq] at h
          exact Or.inr (Or.inr h.1.symm)
        · cases h
  · cases h

theorem identAt_shape {prev : Option Char} {cs : List Char} {run r : List Char}
    (h : identAt prev cs = some (run, r)) :
    ∃ c' cs', run = c' :: cs' ∧ isIdentStart c' = true := by
  cases cs with
  | nil => simp [identAt] at h
  | cons c cs' =>
    rw [identAt] at h
    split at h
    · rename_i hc
      rw [Option.some.injEq, Prod.mk.injEq] at h
      refine ⟨c, (cs'.takeWhile isWordChar), ?_, hc.2⟩
      rw [← h.1, List.takeWhile_cons, if_pos (isIdentStart_isWordChar hc.2)]
    · cases h

theorem constantAt_shape {prev : Option Char} {cs : List Char} {run r : List Char}
    (h : constantAt prev cs = some (run, r)) :
    ∃ c' cs', run = c' :: cs' ∧ c'.isDigit = true := by
  cases cs with
  | nil => simp [constantAt] at h
  | cons c cs' =>
    rw [constantAt] at h
    split at h
    · rename_i hc
      rw [Option.some.injEq, Prod.mk.injEq] at h
      refine ⟨c, (cs'.takeWhile Char.isDigit), ?_, hc.2.1⟩
      rw [← h.1, List.takeWhile_cons, if_pos hc.2.1]
    · cases h

theorem string_mk_eq_dash {c' : Char} {cs' : List Char}
    (h : String.mk (c' :: cs') = "-") : c' = '-' := by
  have h2 : c' :: cs' = ['-'] := congrArg String.data h
  rw [List.cons.injEq] at h2
  exact h2.1

set_option maxHeartbeats 2000000 in
theorem tokenizeAux_invariants (fuel : Nat) : ∀ (toks : List Token) (line : Nat)
    (prev : Option Char) (cs : List Char) (ts : List Token),
    lineNumbering toks → line = 1 + newlineCount toks → minusClassified toks →
    tokenizeAux fuel toks line prev cs = .ok ts →
    lineNumbering ts ∧ minusClassified ts := by
  induction fuel with
  | zero =>
    intro toks line prev cs ts hL hl hM h
    cases cs with
    | nil =>
      simp only [tokenizeAux] at h
      rw [Except.ok.injEq] at h
      subst h
      exact ⟨hL, hM⟩
    | cons c rest =>
      simp only [tokenizeAux] at h
      rw [Except.ok.injEq] at h
      subst h
      exact ⟨hL, hM⟩
  | succ fuel ih =>
    intro toks line prev cs ts hL hl hM h
    cases cs with
    | nil =>
      simp only [tokenizeAux] at h
      rw [Except.ok.injEq] at h
      subst h
      exact ⟨hL, hM⟩
    | cons c rest =>
      simp only [tokenizeAux] at h
      split at h
      · -- KEYWORD
        rename_i kw rest' hkw
        refine ih _ _ _ _ ts (lineNumbering_append hL hl) ?_
          (minusClassified_append hM ?_) h
        · rw [newlineCount_append_not (by rfl)]
          exact hl
        · intro hv
          rcases keywordAt_values hkw with h1 | h1 | h1 <;>
            (rw [show (Token.mk .KEYWORD kw line).value = kw from rfl, h1] at hv ;
             exact absurd hv (by decide))
      split at h
      · -- IDENTIFIER
        rename_i run rest' hid
        refine ih _ _ _ _ ts (lineNumbering_append hL hl) ?_
          (minusClassified_append hM ?_) h
        · rw [newlineCount_append_not (by rfl)]
          exact hl
        · intro hv
          obtain ⟨c', cs', hrun, hstart⟩ := identAt_shape hid
          rw [show (Token.mk .IDENTIFIER (String.mk run) line).value = String.mk run
            from rfl, hrun] at hv
          rw [string_mk_eq_dash hv] at hstart
          exact absurd hstart (by decide)
      split at h
      · -- EQUAL
        refine ih _ _ _ _ ts (lineNumbering_append hL hl) ?_
          (minusClassified_append hM ?_) h
        · rw [newlineCount_append_not (by rfl)]
          exact hl
        · intro hv
          exact absurd hv (show ("=" : String) ≠ "-" by decide)
      split at h
      · -- minus: three sub-branches on the last retained token
        split at h
        · -- no previous token: unary
          rename_i hlast
          refine ih _ _ _ _ ts (lineNumbering_append hL hl) ?_
            (minusClassified_append hM ?_) h
          · rw [newlineCount_append_not (by rfl)]
            exact hl
          · intro hv
            constructor
            · intro hu
              exact Or.inl (List.getLast?_eq_none_iff.mp hlast)
            · intro hor
              rfl
        · split at h
          · -- previous token kind in the unary-preceders list: unary
            rename_i tk hlast hmem
            refine ih _ _ _ _ ts (lineNumbering_append hL hl) ?_
              (minusClassified_append hM ?_) h
            · rw [newlineCount_append_not (by rfl)]
              exact hl
            · intro hv
              constructor
              · intro hu
                exact Or.inr ⟨tk, hlast, hmem⟩
              · intro hor
                rfl
          · -- otherwise: binary
            rename_i tk hlast hmem
            refine ih _ _ _ _ ts (lineNumbering_append hL hl) ?_
              (minusClassified_append hM ?_) h
            · rw [newlineCount_append_not (by rfl)]
              exact hl
            · intro hv
              constructor
              · intro hu
                exact absurd hu
                  (show TokenType.BINARY_OPERATOR ≠ TokenType.UNARY_OPERATOR by decide)
              · intro hor
                rcases hor with hor | ⟨tk', htk', hmem'⟩
                · rw [hor] at hlast
                  simp at hlast
                · rw [hlast, Option.some.injEq] at htk'
                  rw [← htk'] at hmem'
                  exact absurd hmem' hmem
      split at h
      · -- BINARY_OPERATOR for + * /
        rename_i hcond
        refine ih _ _ _ _ ts (lineNumbering_append hL hl) ?_
          (minusClassified_append hM ?_) h
        · rw [newlineCount_append_not (by rfl)]
          exact hl
        · intro hv
          rw [show (Token.mk .BINARY_OPERATOR (String.mk [c]) line).value = String.mk [c]
            from rfl] at hv
          have hc := string_mk_eq_dash hv
          subst hc
          rcases hcond with h1 | h1 | h1 <;> exact absurd h1 (by decide)
      split at h
      · -- SEMICOLON
        refine ih _ _ _ _ ts (lineNumbering_append hL hl) ?_
          (minusClassified_append hM ?_) h
        · rw [newlineCount_append_not (by rfl)]
          exact hl
        · intro hv
          exact absurd hv (show (";" : String) ≠ "-" by decide)
      split at h
      · -- COMMA
        refine ih _ _ _ _ ts (lineNumbering_append hL hl) ?_
          (minusClassified_append hM ?_) h
        · rw [newlineCount_append_not (by rfl)]
          exact hl
        · intro hv
          exact absurd hv (show ("," : String) ≠ "-" by decide)
      split at h
      · -- LPAREN
        refine ih _ _ _ _ ts (lineNumbering_append hL hl) ?_
          (minusClassified_append hM ?_) h
        · rw [newlineCount_append_not (by rfl)]
          exact hl
        · intro hv
          exact absurd hv (show ("(" : String) ≠ "-" by decide)
      split at h
      · -- RPAREN
        refine ih _ _ _ _ ts (lineNumbering_append hL hl) ?_
          (minusClassified_append hM ?_) h
        · rw [newlineCount_append_not (by rfl)]
          exact hl
        · intro hv
          exact absurd hv (show (")" : String) ≠ "-" by decide)
      split at h
      · -- CONSTANT
        rename_i run rest' hcon
        refine ih _ _ _ _ ts (lineNumbering_append hL hl) ?_
          (minusClassified_append hM ?_) h
        · rw [newlineCount_append_not (by rfl)]
          exact hl
        · intro hv
          obtain ⟨c', cs', hrun, hdig⟩ := constantAt_shape hcon
          rw [show (Token.mk .CONSTANT (String.mk run) line).value = String.mk run
            from rfl, hrun] at hv
          rw [string_mk_eq_dash hv] at hdig
          exact absurd hdig (by decide)
      split at h
      · -- SKIP: nothing appended
        exact ih _ _ _ _ ts hL hl hM h
      split at h
      · -- NEWLINE
        refine ih _ _ _ _ ts (lineNumbering_append hL hl) ?_
          (minusClassified_append hM ?_) h
        · rw [newlineCount_append_nl (by rfl)]
          omega
        · intro hv
          exact absurd hv (show ("\n" : String) ≠ "-" by decide)
      · -- MISMATCH raises
        cases h

theorem tokenize_invariants {s : String} {ts : List Token}
    (h : tokenize s = .ok ts) : lineNumbering ts ∧ minusClassified ts := by
  refine tokenizeAux_invariants _ [] 1 none s.data ts ?_ rfl ?_ h
  · intro i hi
    simp at hi
  · constructor
    · intro h0
      simp at h0
    · intro i hi
      simp at hi

/-- C10: for every input string on which the scanner succeeds, every
token of the returned list carries a line number equal to 1 plus the
number of line-break tokens preceding it in the list (a line-break token
carries the number of the line it terminates); consequently line numbers
are non-decreasing along the list. -/
theorem c10_token_line_numbers (s : String) (ts : List Token)
    (h : tokenize s = .ok ts) :
    (∀ i, (hi : i < ts.length) → (ts[i]).line = 1 + newlineCount (ts.take i)) ∧
    (∀ i j, (hi : i < ts.length) → (hj : j < ts.length) → i ≤ j →
      (ts[i]).line ≤ (ts[j]).line) := by
  have hL := (tokenize_invariants h).1
  refine ⟨hL, ?_⟩
  intro i j hi hj hij
  rw [hL i hi, hL j hj]
  have : (ts.take i).countP (fun t => t.t_type == TokenType.NEWLINE) ≤
      (ts.take j).countP (fun t => t.t_type == TokenType.NEWLINE) :=
    List.IsPrefix.countP_le _ (List.take_prefix_take_left ts hij)
  unfold newlineCount
  omega

/-- Witness for C10: on the end-to-end sample program, the seventh
retained token (the keyword `Begin`) carries line 2, one more than the
single line break before it, and line numbers are non-decreasing between
the first and last token. -/
theorem c10_token_line_numbers_witness :
    (sampleToks[6]).line = 1 + newlineCount (sampleToks.take 6) ∧
    (sampleToks[0]).line ≤ (sampleToks[20]).line :=
  ⟨(c10_token_line_numbers sampleSrc sampleToks rfl).1 6 (by decide),
   (c10_token_line_numbers sampleSrc sampleToks rfl).2 0 20 (by decide) (by decide)
     (by decide)⟩

/-- C7: for every input string on which the scanner succeeds, a
`-`-valued token is classified as a unary-operator token exactly when it
is the first retained token, or the immediately preceding retained token
is a semicolon, comma, left parenthesis, binary operator, keyword, line
break or assignment operator (`minusUnaryPreceders`); in every other
position it is a binary-operator token. -/
theorem c7_minus_classification (s : String) (ts : List Token)
    (h : tokenize s = .ok ts) :
    (∀ h0 : 0 < ts.length, (ts[0]).value = "-" →
      (ts[0]).t_type = TokenType.UNARY_OPERATOR) ∧
    (∀ i, (hi : i + 1 < ts.length) → (ts[i + 1]).value = "-" →
      ((ts[i + 1]).t_type = TokenType.UNARY_OPERATOR ↔
        (ts[i]).t_type ∈ minusUnaryPreceders)) :=
  (tokenize_invariants h).2

/-- Tokens of the claim's example `a = -5; b = -(10 + 3);`. -/
def minusExampleToks : List Token :=
  [⟨.IDENTIFIER, "a", 1⟩, ⟨.EQUAL, "=", 1⟩, ⟨.UNARY_OPERATOR, "-", 1⟩,
   ⟨.CONSTANT, "5", 1⟩, ⟨.SEMICOLON, ";", 1⟩,
   ⟨.IDENTIFIER, "b", 1⟩, ⟨.EQUAL, "=", 1⟩, ⟨.UNARY_OPERATOR, "-", 1⟩,
   ⟨.LPAREN, "(", 1⟩, ⟨.CONSTANT, "10", 1⟩, ⟨.BINARY_OPERATOR, "+", 1⟩,
   ⟨.CONSTANT, "3", 1⟩, ⟨.RPAREN, ")", 1⟩, ⟨.SEMICOLON, ";", 1⟩]

/-- Tokens of the claim's example `a = 5 - 3;`. -/
def binaryExampleToks : List Token :=
  [⟨.IDENTIFIER, "a", 1⟩, ⟨.EQUAL, "=", 1⟩, ⟨.CONSTANT, "5", 1⟩,
   ⟨.BINARY_OPERATOR, "-", 1⟩, ⟨.CONSTANT, "3", 1⟩, ⟨.SEMICOLON, ";", 1⟩]

/-- Witness for C7: on `a = -5; b = -(10 + 3);` both leading minuses
satisfy the unary classification (preceded by an assignment operator),
while in `a = 5 - 3;` the minus token at position 3 is classified binary
because its predecessor is a constant. -/
theorem c7_minus_classification_witness :
    ((minusExampleToks[2]).t_type = TokenType.UNARY_OPERATOR ↔
      (minusExampleToks[1]).t_type ∈ minusUnaryPreceders) ∧
    ((minusExampleToks[7]).t_type = TokenType.UNARY_OPERATOR ↔
      (minusExampleToks[6]).t_type ∈ minusUnaryPreceders) ∧
    ((binaryExampleToks[3]).t_type = TokenType.UNARY_OPERATOR ↔
      (binaryExampleToks[2]).t_type ∈ minusUnaryPreceders) :=
  ⟨(c7_minus_classification "a = -5; b = -(10 + 3);" minusExampleToks rfl).2 1
      (by decide) (by decide),
   (c7_minus_classification "a = -5; b = -(10 + 3);" minusExampleToks rfl).2 6
      (by decide) (by decide),
   (c7_minus_classification "a = 5 - 3;" binaryExampleToks rfl).2 2
      (by decide) (by decide)⟩

/-! ### Semantic analyzer claims -/

/-! Evaluation lemmas for `visit`, one per dispatch case; each holds by
reduction of the node-kind comparisons. -/

theorem visit_program_eval (l : Nat) (v : Option String) (ch : List ASTNode)
    (st : AnalyzerState) : visit (.mk "Program" l v ch) st = visitSeq ch st := rfl

theorem visit_varDecl_eval (l : Nat) (v : Option String) (ch : List ASTNode)
    (st : AnalyzerState) :
    visit (.mk "VarDecl" l v ch) st =
      (match visitSeq ch st with
       | .error e => .error e
       | .ok st' => .ok { st' with var_Visited := true }) := rfl

theorem visit_idList_eval (l : Nat) (v : Option String) (ch : List ASTNode)
    (st : AnalyzerState) :
    visit (.mk "IdList" l v ch) st = visitIdListChildren ch st := rfl

theorem visit_ident_eval (l : Nat) (v : Option String) (ch : List ASTNode)
    (st : AnalyzerState) :
    visit (.mk "Ident" l v ch) st =
      (if v ∉ st.symbol_table then .error (.notDeclared v l)
       else if v ∉ st.initialized_vars ∧ st.var_Visited = true then
         .error (.notInitialized v l)
       else .ok st) := rfl

theorem visit_assignList_eval (l : Nat) (v : Option String) (ch : List ASTNode)
    (st : AnalyzerState) :
    visit (.mk "AssignList" l v ch) st = visitSeq ch st := rfl

theorem visit_assign_eval (l : Nat) (v : Option String) (c0 : ASTNode)
    (cs : List ASTNode) (st : AnalyzerState) :
    visit (.mk "Assign" l v (c0 :: cs)) st =
      (if c0.value ∉ st.symbol_table then .error (.notDeclared c0.value c0.line)
       else visitSeq (c0 :: cs)
         { st with initialized_vars := st.initialized_vars ++ [c0.value] }) := rfl

theorem visit_unaryOp_eval (l : Nat) (v : Option String) (ch : List ASTNode)
    (st : AnalyzerState) :
    visit (.mk "UnaryOp" l v ch) st = visitSeq ch st := rfl

theorem visit_binOp_eval (l : Nat) (v : Option String) (ch : List ASTNode)
    (st : AnalyzerState) :
    visit (.mk "BinOp" l v ch) st = visitSeq ch st := rfl

theorem visit_constant_eval (l : Nat) (v : Option String) (ch : List ASTNode)
    (st : AnalyzerState) :
    visit (.mk "Constant" l v ch) st = visitSeq ch st := rfl

/-- AST of `Var x;` / `Begin` / `y = 1;` / `End`. -/
def undeclAst : ASTNode :=
  .mk "Program" 1 none
    [.mk "VarDecl" 1 none [.mk "IdList" 1 none [.mk "Ident" 1 (some "x") []]],
     .mk "AssignList" 3 none
      [.mk "Assign" 3 none
        [.mk "Ident" 3 (some "y") [], .mk "Constant" 3 (some "1") []]]]

/-- AST of `Var x, x;` / `Begin` / `x = 1;` / `End`. -/
def redeclAst : ASTNode :=
  .mk "Program" 1 none
    [.mk "VarDecl" 1 none
      [.mk "IdList" 1 none [.mk "Ident" 1 (some "x") [], .mk "Ident" 1 (some "x") []]],
     .mk "AssignList" 3 none
      [.mk "Assign" 3 none
        [.mk "Ident" 3 (some "x") [], .mk "Constant" 3 (some "1") []]]]

/-- C8: registering a declaration-list identifier whose name is already a
symbol-table key raises `Redeclared` naming it at the declaration's line,
and visiting an identifier reference (an `Ident` node, or the target of
an `Assign` node) whose name is absent from the symbol table raises
`NotDeclared` naming it at the reference's line; concretely,
`Var x; Begin y = 1; End` raises `NotDeclared` for `y` at line 3 and
`Var x, x; Begin x = 1; End` raises `Redeclared` for `x` at line 1. -/
theorem c8_declaration_errors :
    (∃ ts, tokenize "Var x;\nBegin\ny = 1;\nEnd" = .ok ts ∧ parse ts = .ok undeclAst) ∧
    analyze undeclAst = .error (.notDeclared (some "y") 3) ∧
    (∃ ts, tokenize "Var x, x;\nBegin\nx = 1;\nEnd" = .ok ts ∧ parse ts = .ok redeclAst) ∧
    analyze redeclAst = .error (.redeclared (some "x") 1) ∧
    (∀ (st : AnalyzerState) (c : ASTNode) (cs : List ASTNode),
      c.value ∈ st.symbol_table →
      visitIdListChildren (c :: cs) st = .error (.redeclared c.value c.line)) ∧
    (∀ (st : AnalyzerState) (l : Nat) (v : Option String) (ch : List ASTNode),
      v ∉ st.symbol_table →
      visit (.mk "Ident" l v ch) st = .error (.notDeclared v l)) ∧
    (∀ (st : AnalyzerState) (l : Nat) (v : Option String) (c0 : ASTNode)
        (cs : List ASTNode),
      c0.value ∉ st.symbol_table →
      visit (.mk "Assign" l v (c0 :: cs)) st = .error (.notDeclared c0.value c0.line)) := by
  refine ⟨⟨_, rfl, rfl⟩, rfl, ⟨_, rfl, rfl⟩, rfl, ?_, ?_, ?_⟩
  · intro st c cs hmem
    cases c with
    | mk t l v ch =>
      simp only [visitIdListChildren]
      rw [if_pos hmem]
  · intro st l v ch hmem
    rw [visit_ident_eval, if_pos hmem]
  · intro st l v c0 cs hmem
    rw [visit_assign_eval, if_pos hmem]

/-- Witness for C8: the generic redeclaration and not-declared steps,
instantiated on concrete states and nodes. -/
theorem c8_declaration_errors_witness :
    visitIdListChildren [.mk "Ident" 7 (some "z") []] ⟨[some "z"], [], false⟩ =
      .error (.redeclared (some "z") 7) ∧
    visit (.mk "Ident" 9 (some "w") []) ⟨[some "z"], [], false⟩ =
      .error (.notDeclared (some "w") 9) ∧
    visit (.mk "Assign" 4 none [.mk "Ident" 4 (some "w") [],
        .mk "Constant" 4 (some "1") []]) ⟨[some "z"], [], false⟩ =
      .error (.notDeclared (some "w") 4) :=
  ⟨c8_declaration_errors.2.2.2.2.1 ⟨[some "z"], [], false⟩ (.mk "Ident" 7 (some "z") []) []
      (by decide),
   c8_declaration_errors.2.2.2.2.2.1 ⟨[some "z"], [], false⟩ 9 (some "w") [] (by decide),
   c8_declaration_errors.2.2.2.2.2.2 ⟨[some "z"], [], false⟩ 4 none
      (.mk "Ident" 4 (some "w") []) [.mk "Constant" 4 (some "1") []] (by decide)⟩

/-! ### Strict-mode initialization checking (C9)

The analyzer registers an assignment's target in `initialized_vars` upon
entering `visit_Assign`, before visiting the right-hand side, so a read
counts as initialized as soon as the enclosing assignment's target (which
textually precedes it) names the same identifier. -/

mutual

/-- The identifier occurrences (value and line) in a subtree, in
depth-first order; on expression subtrees these are exactly the reads
the analyzer performs. -/
def readsOf : ASTNode → List (Option String × Nat)
  | .mk t line v ch => if t = "Ident" then [(v, line)] else readsOfList ch

/-- `readsOf` over a list of children. -/
def readsOfList : List ASTNode → List (Option String × Nat)
  | [] => []
  | c :: cs => readsOf c ++ readsOfList cs

end

theorem readsOf_ident (l : Nat) (v : Option String) (ch : List ASTNode) :
    readsOf (.mk "Ident" l v ch) = [(v, l)] := rfl

theorem readsOf_constant (l : Nat) (v : Option String) (ch : List ASTNode) :
    readsOf (.mk "Constant" l v ch) = readsOfList ch := rfl

theorem readsOf_unaryOp (l : Nat) (v : Option String) (ch : List ASTNode) :
    readsOf (.mk "UnaryOp" l v ch) = readsOfList ch := rfl

theorem readsOf_binOp (l : Nat) (v : Option String) (ch : List ASTNode) :
    readsOf (.mk "BinOp" l v ch) = readsOfList ch := rfl

/-- Expression subtrees as produced by the parser's
`expression`/`term`/`factor` rules. -/
inductive ExprShaped : ASTNode → Prop where
  | ident (l : Nat) (v : Option String) : ExprShaped (.mk "Ident" l v [])
  | const (l : Nat) (v : Option String) : ExprShaped (.mk "Constant" l v [])
  | unary (l : Nat) (v : Option String) (e : ASTNode) :
      ExprShaped e → ExprShaped (.mk "UnaryOp" l v [e])
  | binop (l : Nat) (v : Option String) (e₁ e₂ : ASTNode) :
      ExprShaped e₁ → ExprShaped e₂ → ExprShaped (.mk "BinOp" l v [e₁, e₂])

/-- Declaration-list entries as produced by the parser's `identifier`
rule. -/
inductive IdentShaped : ASTNode → Prop where
  | mk (l : Nat) (v : Option String) : IdentShaped (.mk "Ident" l v [])

/-- Assignment nodes as produced by the parser's `assignment` rule: an
identifier target followed by an expression. -/
inductive AssignShaped : ASTNode → Prop where
  | mk (l tl : Nat) (tv : Option String) (rhs : ASTNode) :
      ExprShaped rhs → AssignShaped (.mk "Assign" l none [.mk "Ident" tl tv [], rhs])

/-- The value of an assignment node's target (its first child), the name
the analyzer registers as initialized. -/
def targetOf (a : ASTNode) : Option String :=
  match a.children with
  | c :: _ => c.value
  | [] => none

/-- The reads performed while checking an assignment: the identifier
occurrences of its right-hand side (its second child). -/
def rhsReads (a : ASTNode) : List (Option String × Nat) :=
  match a.children with
  | _ :: rhs :: _ => readsOf rhs
  | _ => []

/-- Read-before-write over an assignment list: some assignment's
right-hand side reads identifier `n` at line `l` although `n` is not
among the targets of the assignments up to and including that one (the
enclosing assignment's target counts, since it precedes the read). -/
def readBeforeWrite (assigns : List ASTNode) (n : Option String) (l : Nat) : Prop :=
  ∃ i, ∃ hi : i < assigns.length, (n, l) ∈ rhsReads (assigns[i]) ∧
    n ∉ ((assigns.take (i + 1)).map targetOf)

theorem expr_visit_ok_state {e : ASTNode} (hs : ExprShaped e) :
    ∀ {st st' : AnalyzerState}, visit e st = .ok st' → st' = st := by
  induction hs with
  | ident l v =>
    intro st st' h
    rw [visit_ident_eval] at h
    split at h
    · cases h
    split at h
    · cases h
    · rw [Except.ok.injEq] at h
      exact h.symm
  | const l v =>
    intro st st' h
    rw [visit_constant_eval] at h
    simp only [visitSeq] at h
    rw [Except.ok.injEq] at h
    exact h.symm
  | unary l v e he ih =>
    intro st st' h
    rw [visit_unaryOp_eval] at h
    simp only [visitSeq] at h
    split at h
    · cases h
    rename_i st₁ hv
    rw [Except.ok.injEq] at h
    rw [← h]
    exact ih hv
  | binop l v e₁ e₂ h₁ h₂ ih₁ ih₂ =>
    intro st st' h
    rw [visit_binOp_eval] at h
    simp only [visitSeq] at h
    split at h
    · cases h
    rename_i st₁ hv₁
    split at h
    · cases h
    rename_i st₂ hv₂
    rw [Except.ok.injEq] at h
    rw [← h, ih₂ hv₂, ih₁ hv₁]

theorem expr_visit_ok_reads {e : ASTNode} (hs : ExprShaped e) :
    ∀ {st st' : AnalyzerState}, st.var_Visited = true → visit e st = .ok st' →
    ∀ p ∈ readsOf e, p.1 ∈ st.initialized_vars := by
  induction hs with
  | ident l v =>
    intro st st' hvv h p hp
    rw [readsOf_ident, List.mem_singleton] at hp
    subst hp
    rw [visit_ident_eval] at h
    split at h
    · cases h
    split at h
    · cases h
    · rename_i hcond
      rw [not_and_or] at hcond
      rcases hcond with hc | hc
      · rw [not_not] at hc
        exact hc
      · exact absurd hvv hc
  | const l v =>
    intro st st' hvv h p hp
    rw [readsOf_constant] at hp
    simp only [readsOfList] at hp
    cases hp
  | unary l v e he ih =>
    intro st st' hvv h p hp
    rw [readsOf_unaryOp] at hp
    simp only [readsOfList, List.append_nil] at hp
    rw [visit_unaryOp_eval] at h
    simp only [visitSeq] at h
    split at h
    · cases h
    rename_i st₁ hv
    exact ih hvv hv p hp
  | binop l v e₁ e₂ h₁ h₂ ih₁ ih₂ =>
    intro st st' hvv h p hp
    rw [readsOf_binOp] at hp
    simp only [readsOfList, List.append_nil] at hp
    rw [visit_binOp_eval] at h
    simp only [visitSeq] at h
    split at h
    · cases h
    rename_i st₁ hv₁
    split at h
    · cases h
    rename_i st₂ hv₂
    rcases List.mem_append.mp hp with hp | hp
    · exact ih₁ hvv hv₁ p hp
    · have hst₁ := expr_visit_ok_state h₁ hv₁
      subst hst₁
      exact ih₂ hvv hv₂ p hp

theorem expr_visit_notInit_elim {e : ASTNode} (hs : ExprShaped e) :
    ∀ {st : AnalyzerState} {n : Option String} {l : Nat},
    visit e st = .error (.notInitialized n l) →
    (n, l) ∈ readsOf e ∧ n ∉ st.initialized_vars := by
  induction hs with
  | ident l0 v =>
    intro st n l h
    rw [visit_ident_eval] at h
    split at h
    · rw [Except.error.injEq] at h
      cases h
    split at h
    · rename_i hcond
      rw [Except.error.injEq, SemanticError.notInitialized.injEq] at h
      obtain ⟨hn, hl⟩ := h
      subst hn
      subst hl
      exact ⟨by rw [readsOf_ident]; exact List.mem_singleton.mpr rfl, hcond.1⟩
    · cases h
  | const l0 v =>
    intro st n l h
    rw [visit_constant_eval] at h
    simp only [visitSeq] at h
    cases h
  | unary l0 v e he ih =>
    intro st n l h
    rw [visit_unaryOp_eval] at h
    simp only [visitSeq] at h
    split at h
    · rename_i e₁ hv
      rw [Except.error.injEq] at h
      subst h
      obtain ⟨hm, hi⟩ := ih hv
      refine ⟨?_, hi⟩
      rw [readsOf_unaryOp]
      simp only [readsOfList, List.append_nil]
      exact hm
    · rename_i st₁ hv
      cases h
  | binop l0 v e₁ e₂ h₁ h₂ ih₁ ih₂ =>
    intro st n l h
    rw [visit_binOp_eval] at h
    simp only [visitSeq] at h
    split at h
    · rename_i e' hv₁
      rw [Except.error.injEq] at h
      subst h
      obtain ⟨hm, hi⟩ := ih₁ hv₁
      refine ⟨?_, hi⟩
      rw [readsOf_binOp]
      simp only [readsOfList, List.append_nil]
      exact List.mem_append.mpr (Or.inl hm)
    rename_i st₁ hv₁
    split at h
    · rename_i e' hv₂
      rw [Except.error.injEq] at h
      subst h
      obtain ⟨hm, hi⟩ := ih₂ hv₂
      have hst₁ := expr_visit_ok_state h₁ hv₁
      subst hst₁
      refine ⟨?_, hi⟩
      rw [readsOf_binOp]
      simp only [readsOfList, List.append_nil]
      exact List.mem_append.mpr (Or.inr hm)
    · rename_i st₂ hv₂
      cases h

theorem expr_visit_err_kinds {e : ASTNode} (hs : ExprShaped e) :
    ∀ {st : AnalyzerState} {err : SemanticError},
    (∀ p ∈ readsOf e, p.1 ∈ st.symbol_table) →
    visit e st = .error err → ∃ n l, err = .notInitialized n l := by
  induction hs with
  | ident l0 v =>
    intro st err hdecl h
    rw [visit_ident_eval] at h
    split at h
    · rename_i hc
      exact absurd (hdecl (v, l0) (by rw [readsOf_ident]; exact List.mem_singleton.mpr rfl)) hc
    split at h
    · rw [Except.error.injEq] at h
      exact ⟨v, l0, h.symm⟩
    · cases h
  | const l0 v =>
    intro st err hdecl h
    rw [visit_constant_eval] at h
    simp only [visitSeq] at h
    cases h
  | unary l0 v e he ih =>
    intro st err hdecl h
    rw [visit_unaryOp_eval] at h
    simp only [visitSeq] at h
    split at h
    · rename_i e₁ hv
      rw [Except.error.injEq] at h
      subst h
      refine ih ?_ hv
      intro p hp
      refine hdecl p ?_
      rw [readsOf_unaryOp]
      simp only [readsOfList, List.append_nil]
      exact hp
    · rename_i st₁ hv
      cases h
  | binop l0 v e₁ e₂ h₁ h₂ ih₁ ih₂ =>
    intro st err hdecl h
    rw [visit_binOp_eval] at h
    simp only [visitSeq] at h
    split at h
    · rename_i e' hv₁
      rw [Except.error.injEq] at h
      subst h
      refine ih₁ ?_ hv₁
      intro p hp
      refine hdecl p ?_
      rw [readsOf_binOp]
      simp only [readsOfList, List.append_nil]
      exact List.mem_append.mpr (Or.inl hp)
    rename_i st₁ hv₁
    split at h
    · rename_i e' hv₂
      rw [Except.error.injEq] at h
      subst h
      have hst₁ := expr_visit_ok_state h₁ hv₁
      subst hst₁
      refine ih₂ ?_ hv₂
      intro p hp
      refine hdecl p ?_
      rw [readsOf_binOp]
      simp only [readsOfList, List.append_nil]
      exact List.mem_append.mpr (Or.inr hp)
    · rename_i st₂ hv₂
      cases h

theorem assign_visit_ok_state {a : ASTNode} (ha : AssignShaped a) :
    ∀ {st st' : AnalyzerState}, visit a st = .ok st' →
    st' = { st with initialized_vars := st.initialized_vars ++ [targetOf a] } := by
  cases ha with
  | mk l tl tv rhs hrhs =>
    intro st st' h
    rw [visit_assign_eval] at h
    split at h
    · cases h
    rename_i hdecl
    rw [not_not] at hdecl
    have htgt : visit (.mk "Ident" tl tv [])
        { st with initialized_vars := st.initialized_vars ++ [tv] } =
        .ok { st with initialized_vars := st.initialized_vars ++ [tv] } := by
      rw [visit_ident_eval]
      rw [if_neg (by rw [not_not]; exact hdecl)]
      rw [if_neg ?hinit]
      case hinit =>
        rw [not_and_or, not_not]
        exact Or.inl (List.mem_append.mpr (Or.inr (List.mem_singleton.mpr rfl)))
    rw [show (ASTNode.mk "Ident" tl tv []).value = tv from rfl] at h
    simp only [visitSeq, htgt] at h
    split at h
    · cases h
    rename_i st₂ hv
    rw [Except.ok.injEq] at h
    rw [← h, expr_visit_ok_state hrhs hv]
    rfl

theorem assign_visit_notInit_elim {a : ASTNode} (ha : AssignShaped a) :
    ∀ {st : AnalyzerState} {n : Option String} {l0 : Nat},
    visit a st = .error (.notInitialized n l0) →
    (n, l0) ∈ rhsReads a ∧ n ∉ st.initialized_vars ++ [targetOf a] := by
  cases ha with
  | mk l tl tv rhs hrhs =>
    intro st n l0 h
    rw [visit_assign_eval] at h
    split at h
    · rw [Except.error.injEq] at h
      cases h
    rename_i hdecl
    rw [not_not] at hdecl
    have htgt : visit (.mk "Ident" tl tv [])
        { st with initialized_vars := st.initialized_vars ++ [tv] } =
        .ok { st with initialized_vars := st.initialized_vars ++ [tv] } := by
      rw [visit_ident_eval]
      rw [if_neg (by rw [not_not]; exact hdecl)]
      rw [if_neg ?hinit]
      case hinit =>
        rw [not_and_or, not_not]
        exact Or.inl (List.mem_append.mpr (Or.inr (List.mem_singleton.mpr rfl)))
    rw [show (ASTNode.mk "Ident" tl tv []).value = tv from rfl] at h
    simp only [visitSeq, htgt] at h
    split at h
    · rename_i e' hv
      rw [Except.error.injEq] at h
      subst h
      exact expr_visit_notInit_elim hrhs hv
    · rename_i st₂ hv
      cases h

theorem assign_visit_err_kinds {a : ASTNode} (ha : AssignShaped a) :
    ∀ {st : AnalyzerState} {err : SemanticError},
    targetOf a ∈ st.symbol_table →
    (∀ p ∈ rhsReads a, p.1 ∈ st.symbol_table) →
    visit a st = .error err → ∃ n l, err = .notInitialized n l := by
  cases ha with
  | mk l tl tv rhs hrhs =>
    intro st err htd hrd h
    rw [visit_assign_eval] at h
    split at h
    · rename_i hc
      exact absurd htd hc
    rename_i hdecl
    rw [not_not] at hdecl
    have htgt : visit (.mk "Ident" tl tv [])
        { st with initialized_vars := st.initialized_vars ++ [tv] } =
        .ok { st with initialized_vars := st.initialized_vars ++ [tv] } := by
      rw [visit_ident_eval]
      rw [if_neg (by rw [not_not]; exact hdecl)]
      rw [if_neg ?hinit]
      case hinit =>
        rw [not_and_or, not_not]
        exact Or.inl (List.mem_append.mpr (Or.inr (List.mem_singleton.mpr rfl)))
    rw [show (ASTNode.mk "Ident" tl tv []).value = tv from rfl] at h
    simp only [visitSeq, htgt] at h
    split at h
    · rename_i e' hv
      rw [Except.error.injEq] at h
      subst h
      have hrd2 : ∀ p ∈ readsOf rhs, p.1 ∈
          ({ st with initialized_vars := st.initialized_vars ++ [tv] }).symbol_table :=
        fun p hp => hrd p hp
      exact expr_visit_err_kinds hrhs hrd2 hv
    · rename_i st₂ hv
      cases h

theorem assign_visit_ok_reads {a : ASTNode} (ha : AssignShaped a) :
    ∀ {st st' : AnalyzerState}, st.var_Visited = true → visit a st = .ok st' →
    ∀ p ∈ rhsReads a, p.1 ∈ st.initialized_vars ++ [targetOf a] := by
  cases ha with
  | mk l tl tv rhs hrhs =>
    intro st st' hvv h p hp
    rw [visit_assign_eval] at h
    split at h
    · cases h
    rename_i hdecl
    rw [not_not] at hdecl
    have htgt : visit (.mk "Ident" tl tv [])
        { st with initialized_vars := st.initialized_vars ++ [tv] } =
        .ok { st with initialized_vars := st.initialized_vars ++ [tv] } := by
      rw [visit_ident_eval]
      rw [if_neg (by rw [not_not]; exact hdecl)]
      rw [if_neg ?hinit]
      case hinit =>
        rw [not_and_or, not_not]
        exact Or.inl (List.mem_append.mpr (Or.inr (List.mem_singleton.mpr rfl)))
    rw [show (ASTNode.mk "Ident" tl tv []).value = tv from rfl] at h
    simp only [visitSeq, htgt] at h
    split at h
    · cases h
    rename_i st₂ hv
    have hvv2 : ({ st with initialized_vars := st.initialized_vars ++ [tv] }).var_Visited
        = true := hvv
    exact expr_visit_ok_reads hrhs hvv2 hv p hp

theorem visitSeq_notInit_elim : ∀ (assigns : List ASTNode) (st : AnalyzerState)
    (n : Option String) (l : Nat),
    (∀ a ∈ assigns, AssignShaped a) →
    visitSeq assigns st = .error (.notInitialized n l) →
    ∃ i, ∃ hi : i < assigns.length, (n, l) ∈ rhsReads (assigns[i]) ∧
      n ∉ st.initialized_vars ++ ((assigns.take (i + 1)).map targetOf) := by
  intro assigns
  induction assigns with
  | nil =>
    intro st n l hsh h
    simp only [visitSeq] at h
    cases h
  | cons a rest ih =>
    intro st n l hsh h
    simp only [visitSeq] at h
    split at h
    · rename_i e' hv
      rw [Except.error.injEq] at h
      subst h
      obtain ⟨hm, hni⟩ := assign_visit_notInit_elim (hsh a (List.mem_cons_self a rest)) hv
      exact ⟨0, by simp, hm, hni⟩
    · rename_i st₁ hv
      have hst₁ := assign_visit_ok_state (hsh a (List.mem_cons_self a rest)) hv
      subst hst₁
      obtain ⟨i, hi, hm, hni⟩ := ih _ n l (fun a' ha' => hsh a' (List.mem_cons_of_mem a ha')) h
      refine ⟨i + 1, by simp only [List.length_cons]; omega, hm, ?_⟩
      intro hc
      apply hni
      rw [List.append_assoc]
      exact hc

theorem visitSeq_ok_reads : ∀ (assigns : List ASTNode) (st st' : AnalyzerState),
    (∀ a ∈ assigns, AssignShaped a) → st.var_Visited = true →
    visitSeq assigns st = .ok st' →
    ∀ i, ∀ hi : i < assigns.length, ∀ p ∈ rhsReads (assigns[i]),
      p.1 ∈ st.initialized_vars ++ ((assigns.take (i + 1)).map targetOf) := by
  intro assigns
  induction assigns with
  | nil =>
    intro st st' hsh hvv h i hi
    simp at hi
  | cons a rest ih =>
    intro st st' hsh hvv h i hi p hp
    simp only [visitSeq] at h
    split at h
    · cases h
    rename_i st₁ hv
    have hst₁ := assign_visit_ok_state (hsh a (List.mem_cons_self a rest)) hv
    subst hst₁
    cases i with
    | zero =>
      exact assign_visit_ok_reads (hsh a (List.mem_cons_self a rest)) hvv hv p hp
    | succ i =>
      have hvv₁ : ({ st with initialized_vars :=
          st.initialized_vars ++ [targetOf a] }).var_Visited = true := hvv
      have := ih _ st' (fun a' ha' => hsh a' (List.mem_cons_of_mem a ha')) hvv₁ h i
        (by simp only [List.length_cons] at hi; omega) p hp
      rw [List.append_assoc] at this
      exact this

theorem visitSeq_err_kinds : ∀ (assigns : List ASTNode) (st : AnalyzerState)
    (err : SemanticError),
    (∀ a ∈ assigns, AssignShaped a) →
    (∀ a ∈ assigns, targetOf a ∈ st.symbol_table) →
    (∀ a ∈ assigns, ∀ p ∈ rhsReads a, p.1 ∈ st.symbol_table) →
    visitSeq assigns st = .error err → ∃ n l, err = .notInitialized n l := by
  intro assigns
  induction assigns with
  | nil =>
    intro st err hsh htd hrd h
    simp only [visitSeq] at h
    cases h
  | cons a rest ih =>
    intro st err hsh htd hrd h
    simp only [visitSeq] at h
    split at h
    · rename_i e' hv
      rw [Except.error.injEq] at h
      subst h
      exact assign_visit_err_kinds (hsh a (List.mem_cons_self a rest))
        (htd a (List.mem_cons_self a rest)) (hrd a (List.mem_cons_self a rest)) hv
    · rename_i st₁ hv
      have hst₁ := assign_visit_ok_state (hsh a (List.mem_cons_self a rest)) hv
      subst hst₁
      refine ih _ err (fun a' ha' => hsh a' (List.mem_cons_of_mem a ha')) ?_ ?_ h
      · exact fun a' ha' => htd a' (List.mem_cons_of_mem a ha')
      · exact fun a' ha' => hrd a' (List.mem_cons_of_mem a ha')

theorem ident_visit_after_insert (dl : Nat) (dv : Option String)
    (st : AnalyzerState) (hvv : st.var_Visited = false) :
    visit (.mk "Ident" dl dv [])
      { st with symbol_table := st.symbol_table ++ [dv] } =
      .ok { st with symbol_table := st.symbol_table ++ [dv] } := by
  rw [visit_ident_eval]
  rw [if_neg ?h1]
  case h1 =>
    rw [not_not]
    exact List.mem_append.mpr (Or.inr (List.mem_singleton.mpr rfl))
  rw [if_neg ?h2]
  case h2 =>
    intro hc
    have hcc : st.var_Visited = true := hc.2
    rw [hvv] at hcc
    exact absurd hcc (by decide)

theorem idList_visit_ok_state : ∀ (ids : List ASTNode) (st st' : AnalyzerState),
    (∀ d ∈ ids, IdentShaped d) → st.var_Visited = false →
    visitIdListChildren ids st = .ok st' →
    st'.initialized_vars = st.initialized_vars ∧ st'.var_Visited = false := by
  intro ids
  induction ids with
  | nil =>
    intro st st' hsh hvv h
    simp only [visitIdListChildren] at h
    rw [Except.ok.injEq] at h
    subst h
    exact ⟨rfl, hvv⟩
  | cons d rest ih =>
    intro st st' hsh hvv h
    cases hsh d (List.mem_cons_self d rest) with
    | mk dl dv =>
      simp only [visitIdListChildren] at h
      rw [show (ASTNode.mk "Ident" dl dv []).value = dv from rfl] at h
      split at h
      · cases h
      simp only [ident_visit_after_insert dl dv st hvv] at h
      exact ih { st with symbol_table := st.symbol_table ++ [dv] } st'
        (fun d2 hd2 => hsh d2 (List.mem_cons_of_mem _ hd2)) hvv h

theorem idList_visit_err_kinds : ∀ (ids : List ASTNode) (st : AnalyzerState)
    (err : SemanticError),
    (∀ d ∈ ids, IdentShaped d) → st.var_Visited = false →
    visitIdListChildren ids st = .error err → ∃ nm lm, err = .redeclared nm lm := by
  intro ids
  induction ids with
  | nil =>
    intro st err hsh hvv h
    simp only [visitIdListChildren] at h
    cases h
  | cons d rest ih =>
    intro st err hsh hvv h
    cases hsh d (List.mem_cons_self d rest) with
    | mk dl dv =>
      simp only [visitIdListChildren] at h
      rw [show (ASTNode.mk "Ident" dl dv []).value = dv from rfl] at h
      split at h
      · rw [Except.error.injEq] at h
        exact ⟨_, _, h.symm⟩
      simp only [ident_visit_after_insert dl dv st hvv] at h
      exact ih { st with symbol_table := st.symbol_table ++ [dv] } err
        (fun d2 hd2 => hsh d2 (List.mem_cons_of_mem _ hd2)) hvv h

theorem idList_visit_ok : ∀ (ids : List ASTNode) (st : AnalyzerState),
    (∀ d ∈ ids, IdentShaped d) → st.var_Visited = false →
    (ids.map ASTNode.value).Nodup →
    (∀ d ∈ ids, d.value ∉ st.symbol_table) →
    visitIdListChildren ids st =
      .ok { st with symbol_table := st.symbol_table ++ ids.map ASTNode.value } := by
  intro ids
  induction ids with
  | nil =>
    intro st hsh hvv hnd hfr
    simp only [visitIdListChildren, List.map_nil, List.append_nil]
  | cons d rest ih =>
    intro st hsh hvv hnd hfr
    cases hsh d (List.mem_cons_self d rest) with
    | mk dl dv =>
      simp only [visitIdListChildren]
      rw [show (ASTNode.mk "Ident" dl dv []).value = dv from rfl]
      have hfr0 : dv ∉ st.symbol_table := hfr _ (List.mem_cons_self _ rest)
      rw [if_neg hfr0]
      simp only [ident_visit_after_insert dl dv st hvv]
      rw [show (ASTNode.mk "Ident" dl dv [] :: rest).map ASTNode.value =
        dv :: rest.map ASTNode.value from rfl]
      rw [List.map_cons, show (ASTNode.mk "Ident" dl dv []).value = dv from rfl] at hnd
      have hih := ih { st with symbol_table := st.symbol_table ++ [dv] }
        (fun d2 hd2 => hsh d2 (List.mem_cons_of_mem _ hd2)) hvv hnd.of_cons ?hfr2
      case hfr2 =>
        intro d2 hd2 hc
        have hc2 : d2.value ∈ st.symbol_table ++ [dv] := hc
        rcases List.mem_append.mp hc2 with hc3 | hc3
        · exact hfr d2 (List.mem_cons_of_mem _ hd2) hc3
        · rw [List.mem_singleton] at hc3
          have hdm : d2.value ∈ rest.map ASTNode.value := List.mem_map_of_mem _ hd2
          rw [hc3] at hdm
          exact absurd hdm (List.nodup_cons.mp hnd).1
      rw [hih]
      rw [Except.ok.injEq]
      have hassoc : (st.symbol_table ++ [dv]) ++ rest.map ASTNode.value =
          st.symbol_table ++ (dv :: rest.map ASTNode.value) := by
        rw [List.append_assoc]
        rfl
      have hfin : AnalyzerState.mk
          ((st.symbol_table ++ [dv]) ++ rest.map ASTNode.value)
          st.initialized_vars st.var_Visited =
          AnalyzerState.mk (st.symbol_table ++ (dv :: rest.map ASTNode.value))
          st.initialized_vars st.var_Visited := by
        rw [hassoc]
      exact hfin

/-- A program AST of the shape the parser produces: a `Program` over a
`VarDecl` wrapping an `IdList` of declarations, and an `AssignList`. -/
def progAST (pl vl il ll : Nat) (idents assigns : List ASTNode) : ASTNode :=
  .mk "Program" pl none
    [.mk "VarDecl" vl none [.mk "IdList" il none idents],
     .mk "AssignList" ll none assigns]

theorem analyze_prog_err (pl vl il ll : Nat) (idents assigns : List ASTNode)
    (err : SemanticError)
    (hid : visitIdListChildren idents ⟨[], [], false⟩ = .error err) :
    analyze (progAST pl vl il ll idents assigns) = .error err := by
  unfold analyze progAST
  rw [visit_program_eval]
  simp only [visitSeq, visit_varDecl_eval, visit_idList_eval, hid]

theorem analyze_prog_ok_decl (pl vl il ll : Nat) (idents assigns : List ASTNode)
    (stD : AnalyzerState)
    (hid : visitIdListChildren idents ⟨[], [], false⟩ = .ok stD) :
    analyze (progAST pl vl il ll idents assigns) =
      visitSeq assigns { stD with var_Visited := true } := by
  unfold analyze progAST
  rw [visit_program_eval]
  simp only [visitSeq, visit_varDecl_eval, visit_idList_eval, visit_assignList_eval, hid]
  cases hres : visitSeq assigns { stD with var_Visited := true } with
  | error e => rfl
  | ok s => rfl

/-- C9: for a parser-shaped program AST, the strict initialization check
raises `NotInitialized` for identifier `n` at line `l` only when the
right-hand side of some assignment reads `n` at `l` before `n` has been
the target of an assignment up to and including that one (the analyzer
registers the target on entering the assignment, before visiting its
right-hand side); and conversely, for every such program without
redeclarations and with all targets and reads declared, the existence of
a read before any write makes the check fail with `NotInitialized`. -/
theorem c9_strict_initialization_check (pl vl il ll : Nat)
    (idents assigns : List ASTNode)
    (hids : ∀ d ∈ idents, IdentShaped d)
    (hasn : ∀ a ∈ assigns, AssignShaped a) :
    (∀ n l, analyze (progAST pl vl il ll idents assigns) =
        .error (.notInitialized n l) →
      readBeforeWrite assigns n l) ∧
    ((idents.map ASTNode.value).Nodup →
      (∀ a ∈ assigns, targetOf a ∈ idents.map ASTNode.value) →
      (∀ a ∈ assigns, ∀ p ∈ rhsReads a, p.1 ∈ idents.map ASTNode.value) →
      (∃ n l, readBeforeWrite assigns n l) →
      ∃ n l, analyze (progAST pl vl il ll idents assigns) =
        .error (.notInitialized n l)) := by
  constructor
  · intro n l h
    cases hid : visitIdListChildren idents ⟨[], [], false⟩ with
    | error err =>
      rw [analyze_prog_err pl vl il ll idents assigns err hid] at h
      rw [Except.error.injEq] at h
      obtain ⟨nm, lm, heq⟩ := idList_visit_err_kinds idents ⟨[], [], false⟩ err hids rfl hid
      rw [heq] at h
      cases h
    | ok stD =>
      rw [analyze_prog_ok_decl pl vl il ll idents assigns stD hid] at h
      obtain ⟨hini, hvvD⟩ := idList_visit_ok_state idents ⟨[], [], false⟩ stD hids rfl hid
      obtain ⟨i, hi, hm, hni⟩ := visitSeq_notInit_elim assigns _ n l hasn h
      refine ⟨i, hi, hm, ?_⟩
      intro hc
      apply hni
      have h0 : ({ stD with var_Visited := true }).initialized_vars = [] := hini
      rw [h0, List.nil_append]
      exact hc
  · intro hnd htd hrd hex
    obtain ⟨n, l, i, hi, hm, hni⟩ := hex
    have hfr : ∀ d ∈ idents,
        d.value ∉ (⟨[], [], false⟩ : AnalyzerState).symbol_table := by
      intro d hd hc
      exact absurd hc (List.not_mem_nil _)
    have hid := idList_visit_ok idents ⟨[], [], false⟩ hids rfl hnd hfr
    have heval : analyze (progAST pl vl il ll idents assigns) =
        visitSeq assigns (AnalyzerState.mk (idents.map ASTNode.value) [] true) :=
      analyze_prog_ok_decl pl vl il ll idents assigns _ hid
    cases hres : visitSeq assigns (AnalyzerState.mk (idents.map ASTNode.value) [] true) with
    | ok st2 =>
      exfalso
      have hreads := visitSeq_ok_reads assigns
        (AnalyzerState.mk (idents.map ASTNode.value) [] true) st2 hasn rfl hres
        i hi (n, l) hm
      have hreads2 : n ∈ ([] : List (Option String)) ++
          ((assigns.take (i + 1)).map targetOf) := hreads
      rw [List.nil_append] at hreads2
      exact hni hreads2
    | error err =>
      have htd2 : ∀ a ∈ assigns, targetOf a ∈
          (AnalyzerState.mk (idents.map ASTNode.value) [] true).symbol_table :=
        fun a ha => htd a ha
      have hrd2 : ∀ a ∈ assigns, ∀ p ∈ rhsReads a, p.1 ∈
          (AnalyzerState.mk (idents.map ASTNode.value) [] true).symbol_table :=
        fun a ha p hp => hrd a ha p hp
      obtain ⟨n2, l2, hk⟩ := visitSeq_err_kinds assigns
        (AnalyzerState.mk (idents.map ASTNode.value) [] true) err hasn htd2 hrd2 hres
      refine ⟨n2, l2, ?_⟩
      rw [heval, hres, hk]

/-- The assignment list of `Var x, y;` / `Begin` / `x = y + 1;` /
`y = 2;` / `End`, whose first right-hand side reads `y` before any
assignment to `y`. -/
def rbwAssigns : List ASTNode :=
  [.mk "Assign" 3 none
    [.mk "Ident" 3 (some "x") [],
     .mk "BinOp" 3 (some "+")
      [.mk "Ident" 3 (some "y") [], .mk "Constant" 3 (some "1") []]],
   .mk "Assign" 4 none
    [.mk "Ident" 4 (some "y") [], .mk "Constant" 4 (some "2") []]]

/-- The declaration list `x, y`. -/
def rbwIdents : List ASTNode :=
  [.mk "Ident" 1 (some "x") [], .mk "Ident" 1 (some "y") []]

/-- Witness for C9: on the program `Var x, y; Begin x = y + 1; y = 2;
End` (whose first assignment reads `y` before any write to `y`), the
forward direction recovers the read-before-write from the analyzer's
`NotInitialized` error for `y` at line 3, and the backward direction
produces a `NotInitialized` failure from the read-before-write. -/
theorem c9_strict_initialization_check_witness :
    readBeforeWrite rbwAssigns (some "y") 3 ∧
    ∃ n l, analyze (progAST 1 1 1 3 rbwIdents rbwAssigns) =
      .error (.notInitialized n l) := by
  have hids : ∀ d ∈ rbwIdents, IdentShaped d := by
    intro d hd
    rcases List.mem_cons.mp hd with rfl | hd2
    · exact IdentShaped.mk 1 (some "x")
    rcases List.mem_singleton.mp hd2 with rfl
    exact IdentShaped.mk 1 (some "y")
  have hasn : ∀ a ∈ rbwAssigns, AssignShaped a := by
    intro a ha
    rcases List.mem_cons.mp ha with rfl | ha2
    · exact AssignShaped.mk 3 3 (some "x") _
        (ExprShaped.binop 3 (some "+") _ _
          (ExprShaped.ident 3 (some "y")) (ExprShaped.const 3 (some "1")))
    rcases List.mem_singleton.mp ha2 with rfl
    exact AssignShaped.mk 4 4 (some "y") _ (ExprShaped.const 4 (some "2"))
  constructor
  · exact (c9_strict_initialization_check 1 1 1 3 rbwIdents rbwAssigns hids hasn).1
      (some "y") 3 rfl
  · exact (c9_strict_initialization_check 1 1 1 3 rbwIdents rbwAssigns hids hasn).2
      (by decide) (by decide) (by decide)
      ⟨some "y", 3, 0, by decide, by decide, by decide⟩

end CodeAnalyzer
